import Mathlib

/-!
Verification of the extraction-and-validation engine in `regex.py`.

Python strings are modelled as `List Char`.  The four regular expressions
compiled in `DataExtractor.__init__` are embedded as an abstract syntax tree
(`RE`); `runList` enumerates, for a pattern, a subject string and a start
position, the end positions of all ways the backtracking engine can match,
in exactly Python's backtracking priority order (greedy quantifiers try the
longest repetition first, alternatives are tried left to right).  The match
the Python engine reports is therefore the head of that list (`matchAt`),
and `re.findall`'s non-overlapping left-to-right scan is `findallPos`.
Character classes `\w`, `\d`, `\s` are modelled at their ASCII meaning.
-/

namespace Regexpy

/-- Python `\w` (ASCII): letters, digits and underscore. -/
def isWordChar (c : Char) : Bool := c.isAlphanum || c == '_'

/-- Python `\s` (ASCII): the six whitespace characters. -/
def isPySpace (c : Char) : Bool :=
  c == ' ' || c == '\t' || c == '\n' || c == '\r' || c == '\x0b' || c == '\x0c'

/-- Python `str.strip()` with no argument: drop whitespace on both ends. -/
def pyStrip (l : List Char) : List Char :=
  ((l.dropWhile isPySpace).reverse.dropWhile isPySpace).reverse

/-- Python `str.lower()` (ASCII). -/
def pyLower (l : List Char) : List Char := l.map Char.toLower

/-- Python substring membership `p in s`. -/
def containsSub (p : List Char) : List Char → Bool
  | [] => p.isEmpty
  | c :: t => p.isPrefixOf (c :: t) || containsSub p t

/-- The descending list `[bot+n-1, ..., bot+1, bot]`. -/
def descRangeAux (bot : Nat) : Nat → List Nat
  | 0 => []
  | n + 1 => (bot + n) :: descRangeAux bot n

/-- The descending list `[top, top-1, ..., bot]` (empty when `bot > top`):
the order in which a greedy bounded repetition of a character class offers
its candidate end positions. -/
def descRange (top bot : Nat) : List Nat :=
  descRangeAux bot (top + 1 - bot)

/-- Length of the maximal run of characters satisfying `f` starting at `i`. -/
def runLen (f : Char → Bool) (s : List Char) (i : Nat) : Nat :=
  ((s.drop i).takeWhile f).length

/-- Whether the literal `cs` occurs in `s` starting at position `i`. -/
def litAt : List Char → List Char → Nat → Bool
  | [], _, _ => true
  | c :: cs, s, i =>
    match s.get? i with
    | some d => c == d && litAt cs s (i + 1)
    | none => false

/-- Whether the character at position `i` is a word character. -/
def wordAt (s : List Char) (i : Nat) : Bool :=
  match s.get? i with
  | some c => isWordChar c
  | none => false

/-- Whether the character just before position `i` is a word character. -/
def prevWordAt (s : List Char) (i : Nat) : Bool :=
  match i with
  | 0 => false
  | j + 1 => wordAt s j

/-- Python `\b`: a word boundary at position `i`. -/
def atBoundary (s : List Char) (i : Nat) : Bool :=
  prevWordAt s i != wordAt s i

/-- Regular expressions, as used by the four patterns of `regex.py`:
single-character classes, literals, concatenation, alternation, greedy
bounded and unbounded class repetition, greedy bounded group repetition
(which also covers `(?:...)?` as `{0,1}`) and the word boundary `\b`. -/
inductive RE where
  | eps
  | cls (f : Char → Bool)
  | lit (cs : List Char)
  | seq (a b : RE)
  | alt (a b : RE)
  | many (f : Char → Bool) (lo : Nat)
  | reps (f : Char → Bool) (lo hi : Nat)
  | grp (lo hi : Nat) (r : RE)
  | wb

/-- End positions of a greedy group repetition `{lo,hi}` whose one
iteration offers the end positions `step i`: deeper iterations are tried
first (greedy), stopping is allowed once the minimum `lo` is reached. -/
def grpList (step : Nat → List Nat) : Nat → Nat → Nat → List Nat
  | lo, 0, i => if lo == 0 then [i] else []
  | lo, hi + 1, i =>
    if lo == 0 then ((step i).flatMap (fun j => grpList step 0 hi j)) ++ [i]
    else (step i).flatMap (fun j => grpList step (lo - 1) hi j)

/-- All end positions at which `r` can match `s` starting at `i`, in the
backtracking engine's priority order; the engine reports the head. -/
def runList : RE → List Char → Nat → List Nat
  | .eps, _, i => [i]
  | .cls f, s, i =>
    match s.get? i with
    | some c => if f c then [i + 1] else []
    | none => []
  | .lit cs, s, i => if litAt cs s i then [i + cs.length] else []
  | .seq a b, s, i => (runList a s i).flatMap (fun j => runList b s j)
  | .alt a b, s, i => runList a s i ++ runList b s i
  | .many f lo, s, i => descRange (i + runLen f s i) (i + lo)
  | .reps f lo hi, s, i => descRange (i + min (runLen f s i) hi) (i + lo)
  | .grp lo hi r, s, i => grpList (fun j => runList r s j) lo hi i
  | .wb, s, i => if atBoundary s i then [i] else []

/-- The match reported at position `i`: the highest-priority alternative. -/
def matchAt (r : RE) (s : List Char) (i : Nat) : Option Nat :=
  (runList r s i).head?

/-- One non-overlapping left-to-right scan, as `re.findall` performs it:
try each position, and resume after the end of each (non-empty) match. -/
def findallPosAux (r : RE) (s : List Char) : Nat → Nat → List (Nat × Nat)
  | 0, _ => []
  | fuel + 1, i =>
    if s.length < i then []
    else
      match matchAt r s i with
      | some j =>
        if i < j then (i, j) :: findallPosAux r s fuel j
        else (i, j) :: findallPosAux r s fuel (i + 1)
      | none => findallPosAux r s fuel (i + 1)

/-- Intervals `(start, end)` of the matches found by `re.findall`. -/
def findallPos (r : RE) (s : List Char) : List (Nat × Nat) :=
  findallPosAux r s (s.length + 2) 0

/-- The substring of `s` at positions `[i, j)`. -/
def sliceStr (s : List Char) (i j : Nat) : List Char := (s.take j).drop i

/-- The matched substrings, in scan order: Python's `re.findall`. -/
def findall (r : RE) (s : List Char) : List (List Char) :=
  (findallPos r s).map (fun p => sliceStr s p.1 p.2)

/-! The four patterns of `DataExtractor.__init__`. -/

/-- Characters of the email local part class `[\w.+-]`. -/
def localC (c : Char) : Bool := isWordChar c || c == '.' || c == '+' || c == '-'

/-- Characters of the email domain label class `[\w-]`. -/
def domC (c : Char) : Bool := isWordChar c || c == '-'

/-- Characters of the URL host class `[\w.-]`. -/
def hostC (c : Char) : Bool := isWordChar c || c == '.' || c == '-'

/-- Characters of the URL path class `[\w./?%&=+-]`. -/
def pathC (c : Char) : Bool :=
  isWordChar c || c == '.' || c == '/' || c == '?' || c == '%' || c == '&' ||
    c == '=' || c == '+' || c == '-'

/-- Characters of the phone separator class `[-.\s]`. -/
def sepC (c : Char) : Bool := c == '-' || c == '.' || isPySpace c

/-- Characters of the credit-card separator class `[ -]`. -/
def cardSepC (c : Char) : Bool := c == ' ' || c == '-'

/-- The email pattern `[\w.+-]+@[\w-]+(?:\.[\w-]+)+`.  The unbounded group
repetition `(?:\.[\w-]+)+` is given the iteration bound `n`; each iteration
consumes at least two characters, so any `n ≥ subject length` is exact. -/
def emailRE (n : Nat) : RE :=
  .seq (.many localC 1)
    (.seq (.cls (fun c => c == '@'))
      (.seq (.many domC 1)
        (.grp 1 n (.seq (.cls (fun c => c == '.')) (.many domC 1)))))

/-- The URL pattern `https?://[\w.-]+(?:/[\w./?%&=+-]*)?`. -/
def urlRE : RE :=
  .seq (.lit ("http".data))
    (.seq (.reps (fun c => c == 's') 0 1)
      (.seq (.lit ("://".data))
        (.seq (.many hostC 1)
          (.grp 0 1 (.seq (.cls (fun c => c == '/')) (.many pathC 0))))))

/-- The optional international prefix `(?:\+\d{1,3}[-.\s]?)?` of the phone
pattern. -/
def phoneIntlRE : RE :=
  .grp 0 1
    (.seq (.cls (fun c => c == '+'))
      (.seq (.reps Char.isDigit 1 3) (.reps sepC 0 1)))

/-- The area-code part `(?:\(\d{3}\)|\d{3})` of the phone pattern. -/
def phoneAreaRE : RE :=
  .alt
    (.seq (.cls (fun c => c == '('))
      (.seq (.reps Char.isDigit 3 3) (.cls (fun c => c == ')'))))
    (.reps Char.isDigit 3 3)

/-- The optional extension suffix `(?:\s?(?:ext|x)\s?\d{2,5})?` of the
phone pattern. -/
def phoneExtRE : RE :=
  .grp 0 1
    (.seq (.reps isPySpace 0 1)
      (.seq (.alt (.lit ("ext".data)) (.lit ("x".data)))
        (.seq (.reps isPySpace 0 1) (.reps Char.isDigit 2 5))))

/-- The phone pattern
`(?:\+\d{1,3}[-.\s]?)?(?:\(\d{3}\)|\d{3})[-.\s]?\d{3}[-.\s]?\d{4}(?:\s?(?:ext|x)\s?\d{2,5})?`. -/
def phoneRE : RE :=
  .seq phoneIntlRE
    (.seq phoneAreaRE
      (.seq (.reps sepC 0 1)
        (.seq (.reps Char.isDigit 3 3)
          (.seq (.reps sepC 0 1)
            (.seq (.reps Char.isDigit 4 4) phoneExtRE)))))

/-- One iteration `\d[ -]?` of the credit-card pattern. -/
def cardIterRE : RE := .seq (.cls Char.isDigit) (.reps cardSepC 0 1)

/-- The credit-card pattern `\b(?:\d[ -]?){13,19}\b`. -/
def cardRE : RE := .seq .wb (.seq (.grp 13 19 cardIterRE) .wb)

/-- Whether the character at position `i` is a digit. -/
def isDigitAt (s : List Char) (i : Nat) : Bool :=
  match s.get? i with
  | some c => c.isDigit
  | none => false

/-- Whether the character just before position `i` is a digit. -/
def prevDigitAt (s : List Char) (i : Nat) : Bool :=
  match i with
  | 0 => false
  | j + 1 => isDigitAt s j

/-- Whether the character at position `i` is a card separator. -/
def isCardSepAt (s : List Char) (i : Nat) : Bool :=
  match s.get? i with
  | some c => cardSepC c
  | none => false

/-- One consumption step of the card iteration: a digit, optionally
followed by one separator. -/
def cardStep (s : List Char) (i j : Nat) : Prop :=
  isDigitAt s i = true ∧ (j = i + 1 ∨ (j = i + 2 ∧ isCardSepAt s (i + 1) = true))

/-- A chain of `c` consecutive steps of a relation from `i` to `j`. -/
inductive Chain (P : Nat → Nat → Prop) : Nat → Nat → Nat → Prop where
  | zero (i : Nat) : Chain P 0 i i
  | succ {c i j k : Nat} : P i j → Chain P c j k → Chain P (c + 1) i k

/-- Whether a pattern contains a word-boundary node (whose outcome can
depend on text outside the matched interval). -/
def containsWb : RE → Bool
  | .eps => false
  | .cls _ => false
  | .lit _ => false
  | .seq a b => containsWb a || containsWb b
  | .alt a b => containsWb a || containsWb b
  | .many _ _ => false
  | .reps _ _ _ => false
  | .grp _ _ r => containsWb r
  | .wb => true

/-- No way the pattern can match, starting inside `u`, reaches past the
end of `u` in the concatenation `u ++ v`: the claim's hypothesis that no
pattern matches a substring spanning the concatenation boundary. -/
def NoSpanAt (r : RE) (u v : List Char) : Prop :=
  ∀ i, i < u.length → ∀ j, j ∈ runList r (u ++ v) i → j ≤ u.length

/-! The validators of `DataExtractor`, translated line by line. -/

/-- True when all characters of a nonempty list equal its head: Python's
`len(set(l)) == 1`. -/
def allSameB : List Char → Bool
  | [] => false
  | c :: rest => rest.all (fun d => d == c)

/-- Python `email.split('@')` followed by unpacking into two names:
succeeds exactly when the string has a single `'@'`; the `ValueError`
raised otherwise is modelled by `none`. -/
def splitAtSingle (c : Char) (l : List Char) : Option (List Char × List Char) :=
  if l.count c == 1 then
    some (l.takeWhile (fun x => x != c), (l.dropWhile (fun x => x != c)).tail)
  else none

/-- The SQL-injection denylist `bad_stuff` of `validate_email`. -/
def bad_stuff : List (List Char) :=
  [("union".data), ("select".data), ("drop".data), ("--".data),
   ("/*".data), ("*/".data)]

/-- `DataExtractor.validate_email`. -/
def validate_email (email : List Char) : Bool :=
  if containsSub ("..".data) email || email.head? == some '.' ||
      email.getLast? == some '.' then false
  else
    match splitAtSingle '@' email with
    | none => false
    | some (loc, dom) =>
      if 64 < loc.length ∨ 255 < dom.length then false
      else if bad_stuff.any (fun b => containsSub b (pyLower email)) then false
      else true

/-- The scheme denylist of `validate_url`. -/
def blockedSchemes : List (List Char) :=
  [("javascript:".data), ("data:".data), ("file:".data), ("about:".data)]

/-- The XSS token denylist of `validate_url`. -/
def xssTokens : List (List Char) :=
  [("<script".data), ("onerror".data), ("onload".data)]

/-- `DataExtractor.validate_url`. -/
def validate_url (url : List Char) : Bool :=
  if blockedSchemes.any (fun p => p.isPrefixOf (pyLower url)) then false
  else if xssTokens.any (fun b => containsSub b (pyLower url)) then false
  else if url.contains '\x00' then false
  else true

/-- `DataExtractor.validate_phone`: `re.sub(r'\D', '', phone)` keeps
exactly the digits. -/
def validate_phone (phone : List Char) : Bool :=
  if ¬(10 ≤ (phone.filter Char.isDigit).length ∧
        (phone.filter Char.isDigit).length ≤ 15) then false
  else if allSameB (phone.filter Char.isDigit) then false
  else true

/-- `card.replace(' ', '').replace('-', '')`. -/
def cleanCard (card : List Char) : List Char :=
  card.filter (fun c => c != ' ' && c != '-')

/-- Python `str.isdigit()` (false on the empty string). -/
def isDigitStr (l : List Char) : Bool := !l.isEmpty && l.all Char.isDigit

/-- `DataExtractor.validate_credit_card`. -/
def validate_credit_card (card : List Char) : Bool :=
  if !(isDigitStr (cleanCard card)) then false
  else if ¬(13 ≤ (cleanCard card).length ∧ (cleanCard card).length ≤ 19) then
    false
  else if allSameB (cleanCard card) then false
  else true

/-! Findings and the extraction functions. -/

/-- The `status` field of a finding. -/
inductive Status where
  | valid
  | invalid
deriving DecidableEq

/-- The `type` field of a finding. -/
inductive Cat where
  | email
  | url
  | phone
  | credit_card
deriving DecidableEq

/-- One result dictionary of the extractor: `type`, `value`, `status` and
the optional `raw_format` (present only on valid credit cards). -/
structure Finding where
  cat : Cat
  value : List Char
  status : Status
  raw_format : Option (List Char)
deriving DecidableEq

/-- `DataExtractor.extract_emails`. -/
def extract_emails (text : List Char) : List Finding :=
  (findall (emailRE text.length) text).map
    (fun m => ⟨.email, m, if validate_email m then .valid else .invalid, none⟩)

/-- `DataExtractor.extract_urls`. -/
def extract_urls (text : List Char) : List Finding :=
  (findall urlRE text).map
    (fun m => ⟨.url, m, if validate_url m then .valid else .invalid, none⟩)

/-- `DataExtractor.extract_phone_numbers` (the value is `phone.strip()`). -/
def extract_phone_numbers (text : List Char) : List Finding :=
  (findall phoneRE text).map
    (fun m => ⟨.phone, pyStrip m,
      if validate_phone m then .valid else .invalid, none⟩)

/-- The mask `'*' * (len(clean) - 4) + clean[-4:]`. -/
def maskCard (clean : List Char) : List Char :=
  List.replicate (clean.length - 4) '*' ++ clean.drop (clean.length - 4)

/-- `DataExtractor.extract_credit_cards`. -/
def extract_credit_cards (text : List Char) : List Finding :=
  (findall cardRE text).map
    (fun card =>
      if validate_credit_card card then
        ⟨.credit_card, maskCard (cleanCard card), .valid, some card⟩
      else ⟨.credit_card, card, .invalid, none⟩)

/-- The mapping returned by `DataExtractor.extract_all`. -/
structure AllResults where
  emails : List Finding
  urls : List Finding
  phones : List Finding
  credit_cards : List Finding
deriving DecidableEq

/-- `DataExtractor.extract_all`. -/
def extract_all (text : List Char) : AllResults :=
  ⟨extract_emails text, extract_urls text,
   extract_phone_numbers text, extract_credit_cards text⟩

/-! Predicates written from the specification's words, to be compared with
the validators translated from the code. -/

/-- Spec, email rejection: contains a repeated dot, starts or ends with a
dot, does not split into exactly one local part and one domain part around
a single `@`, local part longer than 64, domain part longer than 255, or
case-insensitively contains a denylist token. -/
def emailRejectSpec (e : List Char) : Prop :=
  (∃ u v, e = u ++ ("..".data) ++ v) ∨
  e.head? = some '.' ∨
  e.getLast? = some '.' ∨
  e.count '@' ≠ 1 ∨
  64 < (e.takeWhile (fun c => c != '@')).length ∨
  255 < ((e.dropWhile (fun c => c != '@')).tail).length ∨
  (∃ b ∈ bad_stuff, ∃ u v, pyLower e = u ++ b ++ v)

/-- Spec, credit-card acceptance: after deleting spaces and hyphens every
remaining character is a digit, between 13 and 19 of them remain, and not
all of them are identical. -/
def cardAcceptSpec (card : List Char) : Prop :=
  (∀ c ∈ cleanCard card, c.isDigit = true) ∧
  13 ≤ (cleanCard card).length ∧ (cleanCard card).length ≤ 19 ∧
  ¬ (∃ d, ∀ c ∈ cleanCard card, c = d)

/-- Spec, phone acceptance: the string obtained by deleting every
non-digit character has between 10 and 15 digits, not all identical. -/
def phoneAcceptSpec (p : List Char) : Prop :=
  10 ≤ (p.filter Char.isDigit).length ∧ (p.filter Char.isDigit).length ≤ 15 ∧
  ¬ (∃ d, ∀ c ∈ p.filter Char.isDigit, c = d)

/-! ## Basic lemmas bridging the executable checks and their specifications -/

/-- Characterization of `List.isPrefixOf`. -/
theorem isPrefixOf_eq_true (p : List Char) :
    ∀ s : List Char, p.isPrefixOf s = true ↔ ∃ v, s = p ++ v := by
  induction p with
  | nil => intro s; simp [List.isPrefixOf]
  | cons c cs ih =>
    intro s
    cases s with
    | nil => simp [List.isPrefixOf]
    | cons d t =>
      simp only [List.isPrefixOf, Bool.and_eq_true, beq_iff_eq, ih]
      constructor
      · rintro ⟨rfl, v, rfl⟩; exact ⟨v, rfl⟩
      · rintro ⟨v, hv⟩
        injection hv with h1 h2
        exact ⟨h1.symm, v, h2⟩

/-- Characterization of Python substring membership. -/
theorem containsSub_eq_true (p : List Char) :
    ∀ s : List Char, containsSub p s = true ↔ ∃ u v, s = u ++ p ++ v := by
  intro s
  induction s with
  | nil =>
    simp only [containsSub, List.isEmpty_iff]
    constructor
    · rintro rfl; exact ⟨[], [], rfl⟩
    · rintro ⟨u, v, huv⟩
      rcases List.append_eq_nil.mp (List.append_eq_nil.mp huv.symm).1 with ⟨-, h⟩
      exact h
  | cons c t ih =>
    simp only [containsSub, Bool.or_eq_true, isPrefixOf_eq_true, ih]
    constructor
    · rintro (⟨v, hv⟩ | ⟨u, v, huv⟩)
      · exact ⟨[], v, by simpa using hv⟩
      · exact ⟨c :: u, v, by simp [huv]⟩
    · rintro ⟨u, v, huv⟩
      cases u with
      | nil => exact Or.inl ⟨v, by simpa using huv⟩
      | cons c' u' =>
        injection huv with h1 h2
        exact Or.inr ⟨u', v, h2⟩

/-- A nonempty list has all characters equal to some single character
exactly when `allSameB` holds (Python's `len(set(l)) == 1`). -/
theorem allSameB_iff {l : List Char} (h : l ≠ []) :
    allSameB l = true ↔ ∃ d, ∀ c ∈ l, c = d := by
  cases l with
  | nil => exact absurd rfl h
  | cons c rest =>
    simp only [allSameB, List.all_eq_true, beq_iff_eq]
    constructor
    · intro hall
      refine ⟨c, ?_⟩
      intro x hx
      rcases List.mem_cons.mp hx with rfl | hx
      · rfl
      · exact hall x hx
    · rintro ⟨d, hd⟩
      intro x hx
      rw [hd x (List.mem_cons_of_mem _ hx), hd c (List.mem_cons_self _ _)]

/-- `splitAtSingle` fails exactly when the separator count is not one. -/
theorem splitAtSingle_eq_none {c : Char} {l : List Char} :
    splitAtSingle c l = none ↔ l.count c ≠ 1 := by
  simp only [splitAtSingle, beq_iff_eq]
  split
  · next h => simp [h]
  · next h => simp [h]

/-- What a successful `splitAtSingle` returns. -/
theorem splitAtSingle_eq_some {c : Char} {l a b : List Char}
    (h : splitAtSingle c l = some (a, b)) :
    l.count c = 1 ∧ a = l.takeWhile (fun x => x != c) ∧
      b = (l.dropWhile (fun x => x != c)).tail := by
  revert h
  simp only [splitAtSingle, beq_iff_eq]
  split
  · next hc =>
    intro h
    injection h with h2
    rw [Prod.mk.injEq] at h2
    exact ⟨hc, h2.1.symm, h2.2.symm⟩
  · next hc => intro h; cases h

/-- Unfolding of `validate_email` into its rejection conditions. -/
theorem validate_email_eq (e : List Char) :
    validate_email e = false ↔
      containsSub ("..".data) e = true ∨ e.head? = some '.' ∨
      e.getLast? = some '.' ∨
      e.count '@' ≠ 1 ∨
      64 < (e.takeWhile (fun c => c != '@')).length ∨
      255 < ((e.dropWhile (fun c => c != '@')).tail).length ∨
      bad_stuff.any (fun b => containsSub b (pyLower e)) = true := by
  unfold validate_email
  split
  · next h1 =>
    simp only [Bool.or_eq_true, beq_iff_eq] at h1
    exact iff_of_true rfl (by tauto)
  · next h1 =>
    simp only [Bool.or_eq_true, beq_iff_eq, not_or] at h1
    obtain ⟨⟨hdd, hhd⟩, hld⟩ := h1
    split
    · next h2 =>
      have hc := splitAtSingle_eq_none.mp h2
      exact iff_of_true rfl (by tauto)
    · next loc dom h2 =>
      obtain ⟨hcnt, hloc, hdom⟩ := splitAtSingle_eq_some h2
      subst hloc hdom
      split
      · next hlen => exact iff_of_true rfl (by tauto)
      · next hlen =>
        rw [not_or] at hlen
        split
        · next htok => exact iff_of_true rfl (by tauto)
        · next htok =>
          refine iff_of_false (fun h => Bool.noConfusion h) ?_
          rintro (h | h | h | h | h | h | h)
          · exact hdd h
          · exact hhd h
          · exact hld h
          · exact h hcnt
          · exact hlen.1 h
          · exact hlen.2 h
          · exact htok h

/-- The email validator rejects exactly the strings described by the
specification's rejection conditions. -/
theorem validate_email_false_iff (e : List Char) :
    validate_email e = false ↔ emailRejectSpec e := by
  rw [validate_email_eq]
  unfold emailRejectSpec
  constructor
  · rintro (h | h | h | h | h | h | h)
    · exact Or.inl ((containsSub_eq_true _ _).mp h)
    · tauto
    · tauto
    · tauto
    · tauto
    · tauto
    · simp only [List.any_eq_true] at h
      obtain ⟨b, hb, hcb⟩ := h
      exact Or.inr (Or.inr (Or.inr (Or.inr (Or.inr (Or.inr
        ⟨b, hb, (containsSub_eq_true _ _).mp hcb⟩)))))
  · rintro (h | h | h | h | h | h | h)
    · exact Or.inl ((containsSub_eq_true _ _).mpr h)
    · tauto
    · tauto
    · tauto
    · tauto
    · tauto
    · obtain ⟨b, hb, u, v, huv⟩ := h
      refine Or.inr (Or.inr (Or.inr (Or.inr (Or.inr (Or.inr ?_)))))
      simp only [List.any_eq_true]
      exact ⟨b, hb, (containsSub_eq_true _ _).mpr ⟨u, v, huv⟩⟩

/-- Unfolding of `validate_credit_card` into its acceptance conditions. -/
theorem validate_credit_card_eq (card : List Char) :
    validate_credit_card card = true ↔
      isDigitStr (cleanCard card) = true ∧
      (13 ≤ (cleanCard card).length ∧ (cleanCard card).length ≤ 19) ∧
      allSameB (cleanCard card) = false := by
  unfold validate_credit_card
  split
  · next h => simp_all
  · next h =>
    split
    · next h2 => simp_all
    · next h2 =>
      split
      · next h3 => simp_all
      · next h3 => simp_all

/-- The credit-card validator accepts exactly the strings described by the
specification's acceptance conditions. -/
theorem validate_credit_card_true_iff (card : List Char) :
    validate_credit_card card = true ↔ cardAcceptSpec card := by
  rw [validate_credit_card_eq]
  unfold cardAcceptSpec
  constructor
  · rintro ⟨hd, hlen, hsame⟩
    have hne : cleanCard card ≠ [] := by
      intro h
      rw [h] at hd
      simp [isDigitStr] at hd
    have hdig : ∀ c ∈ cleanCard card, c.isDigit = true := by
      simp only [isDigitStr, Bool.and_eq_true, List.all_eq_true] at hd
      exact hd.2
    refine ⟨hdig, hlen.1, hlen.2, fun hex => ?_⟩
    rw [(allSameB_iff hne).mpr hex] at hsame
    exact Bool.noConfusion hsame
  · rintro ⟨hdig, h13, h19, hnsame⟩
    have hne : cleanCard card ≠ [] := by
      intro h
      rw [h] at h13
      simp at h13
    refine ⟨?_, ⟨h13, h19⟩, ?_⟩
    · simp only [isDigitStr, Bool.and_eq_true, List.all_eq_true]
      refine ⟨?_, hdig⟩
      cases h : cleanCard card with
      | nil => exact absurd h hne
      | cons a l => rfl
    · rcases h : allSameB (cleanCard card) with - | -
      · rfl
      · exact absurd ((allSameB_iff hne).mp h) hnsame

/-- Unfolding of `validate_phone` into its acceptance conditions. -/
theorem validate_phone_eq (p : List Char) :
    validate_phone p = true ↔
      (10 ≤ (p.filter Char.isDigit).length ∧
        (p.filter Char.isDigit).length ≤ 15) ∧
      allSameB (p.filter Char.isDigit) = false := by
  unfold validate_phone
  split
  · next h => simp_all
  · next h =>
    split
    · next h2 => simp_all
    · next h2 => simp_all

/-- The phone validator accepts exactly the strings described by the
specification's acceptance conditions. -/
theorem validate_phone_true_iff (p : List Char) :
    validate_phone p = true ↔ phoneAcceptSpec p := by
  rw [validate_phone_eq]
  unfold phoneAcceptSpec
  constructor
  · rintro ⟨hlen, hsame⟩
    have hne : p.filter Char.isDigit ≠ [] := by
      intro h
      rw [h] at hlen
      simp at hlen
    refine ⟨hlen.1, hlen.2, fun hex => ?_⟩
    rw [(allSameB_iff hne).mpr hex] at hsame
    exact Bool.noConfusion hsame
  · rintro ⟨h10, h15, hnsame⟩
    have hne : p.filter Char.isDigit ≠ [] := by
      intro h
      rw [h] at h10
      simp at h10
    refine ⟨⟨h10, h15⟩, ?_⟩
    rcases h : allSameB (p.filter Char.isDigit) with - | -
    · rfl
    · exact absurd ((allSameB_iff hne).mp h) hnsame

/-- Any finding's status is either valid or invalid. -/
theorem status_total (f : Finding) : f.status = .valid ∨ f.status = .invalid := by
  cases h : f.status
  · exact Or.inl rfl
  · exact Or.inr rfl

/-! ## Claim theorems -/

/-- Claim C2: `validate_email` returns `False` exactly when its argument
contains `'..'`, starts or ends with `'.'`, does not split into exactly one
local part and one domain part around a single `'@'`, has a local part
longer than 64 characters or a domain part longer than 255 characters, or
case-insensitively contains a denylist token; `'a..b@example.com'` is
classified Invalid and `'user+tag@example.com'` Valid. -/
theorem c2_validate_email_characterization :
    (∀ e : List Char, validate_email e = false ↔ emailRejectSpec e) ∧
    validate_email (("a..b@example.com").data) = false ∧
    validate_email (("user+tag@example.com").data) = true :=
  ⟨validate_email_false_iff, by decide, by decide⟩

/-- Claim C3, counterexample: URL extraction run on the text
`javascript:alert('xss')` produces no finding valued at that substring at
all (the URL pattern only matches `http(s)://` prefixes), contradicting the
claim that a finding with status invalid is produced for it. -/
theorem c3_no_finding_for_javascript_url :
    ¬ (∃ f ∈ extract_urls (("javascript:alert(\x27xss\x27)").data),
        f.value = ("javascript:alert(\x27xss\x27)").data ∧
        f.status = .invalid) := by
  decide

/-- Claim C3, amended: URL extraction on the text `javascript:alert('xss')`
produces no finding at all for it, while the URL validator does classify
that string as invalid; and extraction on `https://example.com/path?x=1`
yields exactly one finding, for that substring, with status valid. -/
theorem c3_url_extraction_examples :
    extract_urls (("javascript:alert(\x27xss\x27)").data) = [] ∧
    validate_url (("javascript:alert(\x27xss\x27)").data) = false ∧
    extract_urls (("https://example.com/path?x=1").data) =
      [⟨.url, ("https://example.com/path?x=1").data, .valid, none⟩] := by
  refine ⟨by decide, by decide, by decide⟩

/-- Claim C4: the validators and extraction functions are total functions
producing a value for every input; the malformed split around `'@'`
(anything but exactly one `'@'`) is reported by `validate_email` returning
`false`, not by a fault, and every finding carries a valid-or-invalid
status. -/
theorem c4_totality (text s : List Char) (h : s.count '@' ≠ 1) :
    validate_email s = false ∧
    extract_all text = ⟨extract_emails text, extract_urls text,
      extract_phone_numbers text, extract_credit_cards text⟩ ∧
    (∀ f ∈ (extract_all text).emails, f.status = .valid ∨ f.status = .invalid) ∧
    (∀ f ∈ (extract_all text).urls, f.status = .valid ∨ f.status = .invalid) ∧
    (∀ f ∈ (extract_all text).phones, f.status = .valid ∨ f.status = .invalid) ∧
    (∀ f ∈ (extract_all text).credit_cards,
      f.status = .valid ∨ f.status = .invalid) := by
  refine ⟨?_, rfl, fun f _ => status_total f, fun f _ => status_total f,
    fun f _ => status_total f, fun f _ => status_total f⟩
  unfold validate_email
  split
  · rfl
  · rw [splitAtSingle_eq_none.mpr h]

/-- Witness for claim C4 at a concrete text and a concrete
zero-`'@'` candidate. -/
theorem c4_totality_witness :
    validate_email (("ab").data) = false ∧
    extract_all (("a@b.c").data) = ⟨extract_emails (("a@b.c").data),
      extract_urls (("a@b.c").data), extract_phone_numbers (("a@b.c").data),
      extract_credit_cards (("a@b.c").data)⟩ ∧
    (∀ f ∈ (extract_all (("a@b.c").data)).emails,
      f.status = .valid ∨ f.status = .invalid) ∧
    (∀ f ∈ (extract_all (("a@b.c").data)).urls,
      f.status = .valid ∨ f.status = .invalid) ∧
    (∀ f ∈ (extract_all (("a@b.c").data)).phones,
      f.status = .valid ∨ f.status = .invalid) ∧
    (∀ f ∈ (extract_all (("a@b.c").data)).credit_cards,
      f.status = .valid ∨ f.status = .invalid) :=
  c4_totality (("a@b.c").data) (("ab").data) (by decide)

/-- Claim C5: `validate_credit_card` accepts exactly when the string
obtained by deleting spaces and hyphens is all digits, 13 to 19 of them,
not all identical (no Luhn checksum); `'4532 1234 5678 9010'` is extracted
as Valid with the masked value and original `raw_format`, and
`'9999-9999-9999-9999'` as Invalid. -/
theorem c5_validate_credit_card_characterization :
    (∀ card : List Char,
      validate_credit_card card = true ↔ cardAcceptSpec card) ∧
    extract_credit_cards (("4532 1234 5678 9010").data) =
      [⟨.credit_card, ("************9010").data, .valid,
        some (("4532 1234 5678 9010").data)⟩] ∧
    extract_credit_cards (("9999-9999-9999-9999").data) =
      [⟨.credit_card, ("9999-9999-9999-9999").data, .invalid, none⟩] :=
  ⟨validate_credit_card_true_iff, by decide, by decide⟩

/-- Claim C6: `validate_phone` accepts exactly when the digits remaining
after deleting every non-digit character number between 10 and 15 and are
not all identical; `'111-111-1111'` is classified Invalid and
`'(555) 123-4567'` Valid with exactly 10 digits after normalization. -/
theorem c6_validate_phone_characterization :
    (∀ p : List Char, validate_phone p = true ↔ phoneAcceptSpec p) ∧
    extract_phone_numbers (("111-111-1111").data) =
      [⟨.phone, ("111-111-1111").data, .invalid, none⟩] ∧
    extract_phone_numbers (("(555) 123-4567").data) =
      [⟨.phone, ("(555) 123-4567").data, .valid, none⟩] ∧
    ((("(555) 123-4567").data).filter Char.isDigit).length = 10 :=
  ⟨validate_phone_true_iff, by decide, by decide, by decide⟩

/-- Dropping the length of a replicated block from its append. -/
theorem drop_replicate_append (n : Nat) (a : Char) (l : List Char) :
    (List.replicate n a ++ l).drop n = l := by
  induction n with
  | zero => rfl
  | succ m ih => simp [List.replicate_succ, ih]

/-- Positions inside the replicated block hold the replicated character. -/
theorem get?_replicate_append {n k : Nat} (hk : k < n) (a : Char)
    (l : List Char) : (List.replicate n a ++ l).get? k = some a := by
  induction n generalizing k with
  | zero => omega
  | succ m ih =>
    rw [List.replicate_succ]
    cases k with
    | zero => rfl
    | succ k' => simpa using ih (by omega)

/-- The mask preserves the length of the normalized digit string. -/
theorem maskCard_length (l : List Char) : (maskCard l).length = l.length := by
  unfold maskCard
  rw [List.length_append, List.length_replicate, List.length_drop]
  omega

/-- Claim C1: for every text, every valid credit-card finding has a value
of the same length as the digit string obtained by deleting spaces and
hyphens from the matched candidate, its last 4 characters are that
string's last 4 digits, every earlier character is an asterisk, and
`raw_format` holds the matched candidate unchanged. -/
theorem c1_mask_shape (text : List Char) (f : Finding)
    (hmem : f ∈ extract_credit_cards text) (hval : f.status = .valid) :
    ∃ card, card ∈ findall cardRE text ∧ f.raw_format = some card ∧
      f.value.length = (cleanCard card).length ∧
      f.value.drop (f.value.length - 4) =
        (cleanCard card).drop ((cleanCard card).length - 4) ∧
      ∀ k, k < f.value.length - 4 → f.value.get? k = some '*' := by
  unfold extract_credit_cards at hmem
  rw [List.mem_map] at hmem
  obtain ⟨card, hcard, hf⟩ := hmem
  by_cases hv : validate_credit_card card = true
  · rw [if_pos hv] at hf
    subst hf
    refine ⟨card, hcard, rfl, maskCard_length _, ?_, ?_⟩
    · rw [maskCard_length]
      unfold maskCard
      exact drop_replicate_append _ _ _
    · intro k hk
      rw [maskCard_length] at hk
      unfold maskCard
      exact get?_replicate_append hk _ _
  · rw [if_neg hv] at hf
    subst hf
    exact absurd hval (by simp)

/-- Witness for claim C1 at the sample card `4532 1234 5678 9010`. -/
theorem c1_mask_shape_witness :
    ∃ card, card ∈ findall cardRE (("4532 1234 5678 9010").data) ∧
      (some (("4532 1234 5678 9010").data) : Option (List Char)) = some card ∧
      (("************9010").data).length = (cleanCard card).length ∧
      (("************9010").data).drop ((("************9010").data).length - 4) =
        (cleanCard card).drop ((cleanCard card).length - 4) ∧
      ∀ k, k < (("************9010").data).length - 4 →
        (("************9010").data).get? k = some '*' :=
  c1_mask_shape (("4532 1234 5678 9010").data)
    ⟨.credit_card, ("************9010").data, .valid,
      some (("4532 1234 5678 9010").data)⟩
    (by decide) rfl

/-- Claim C9: masking is applied only to candidates that passed
`validate_credit_card`, whose normalized digit string therefore has length
between 13 and 19, so the masker's short-input case (fewer than 4 digits)
is unreachable at its only call site. -/
theorem c9_masker_precondition_guarded (text : List Char) (f : Finding)
    (hmem : f ∈ extract_credit_cards text) (hval : f.status = .valid) :
    ∃ card, card ∈ findall cardRE text ∧ validate_credit_card card = true ∧
      f.value = maskCard (cleanCard card) ∧ f.raw_format = some card ∧
      13 ≤ (cleanCard card).length ∧ (cleanCard card).length ≤ 19 ∧
      4 ≤ (cleanCard card).length := by
  unfold extract_credit_cards at hmem
  rw [List.mem_map] at hmem
  obtain ⟨card, hcard, hf⟩ := hmem
  by_cases hv : validate_credit_card card = true
  · rw [if_pos hv] at hf
    subst hf
    obtain ⟨-, ⟨h13, h19⟩, -⟩ := (validate_credit_card_eq card).mp hv
    exact ⟨card, hcard, hv, rfl, rfl, h13, h19, by omega⟩
  · rw [if_neg hv] at hf
    subst hf
    exact absurd hval (by simp)

/-- Witness for claim C9 at the sample card `5412-1234-5678-9012`. -/
theorem c9_masker_precondition_guarded_witness :
    ∃ card, card ∈ findall cardRE (("5412-1234-5678-9012").data) ∧
      validate_credit_card card = true ∧
      ("************9012").data = maskCard (cleanCard card) ∧
      (some (("5412-1234-5678-9012").data) : Option (List Char)) = some card ∧
      13 ≤ (cleanCard card).length ∧ (cleanCard card).length ≤ 19 ∧
      4 ≤ (cleanCard card).length :=
  c9_masker_precondition_guarded (("5412-1234-5678-9012").data)
    ⟨.credit_card, ("************9012").data, .valid,
      some (("5412-1234-5678-9012").data)⟩
    (by decide) rfl

/-! ## Soundness facts about the matcher, for the credit-card pattern -/

/-- Membership in the descending list builder. -/
theorem mem_descRangeAux {x bot : Nat} :
    ∀ {n : Nat}, x ∈ descRangeAux bot n ↔ bot ≤ x ∧ x < bot + n := by
  intro n
  induction n with
  | zero => simp [descRangeAux]
  | succ m ih =>
    unfold descRangeAux
    rw [List.mem_cons, ih]
    omega

/-- Membership in a descending range. -/
theorem mem_descRange {x top bot : Nat} :
    x ∈ descRange top bot ↔ bot ≤ x ∧ x ≤ top := by
  unfold descRange
  rw [mem_descRangeAux]
  omega

/-- Indexing is the head of the dropped suffix. -/
theorem get?_eq_head?_drop (s : List Char) (i : Nat) :
    s.get? i = (s.drop i).head? := by
  induction s generalizing i with
  | nil => simp
  | cons c t ih =>
    cases i with
    | zero => rfl
    | succ n => exact ih n

/-- A positive run starts with a character of the class. -/
theorem runLen_pos {f : Char → Bool} {s : List Char} {i : Nat}
    (h : 1 ≤ runLen f s i) : ∃ c, s.get? i = some c ∧ f c = true := by
  unfold runLen at h
  rw [get?_eq_head?_drop]
  cases hd : s.drop i with
  | nil => rw [hd] at h; simp at h
  | cons c t =>
    rw [hd] at h
    by_cases hf : f c = true
    · exact ⟨c, rfl, hf⟩
    · rw [List.takeWhile_cons] at h
      simp [hf] at h

/-- A word-boundary node consumes nothing and requires the boundary. -/
theorem wb_sound {s : List Char} {i j : Nat} (h : j ∈ runList .wb s i) :
    j = i ∧ atBoundary s i = true := by
  revert h
  unfold runList
  by_cases hb : atBoundary s i = true
  · simp [hb]
  · simp [hb]

/-- Soundness of one credit-card iteration. -/
theorem cardIter_sound {s : List Char} {i j : Nat}
    (h : j ∈ runList cardIterRE s i) : cardStep s i j := by
  obtain ⟨m, hm, hj⟩ := List.mem_flatMap.mp h
  have hdig : isDigitAt s i = true ∧ m = i + 1 := by
    revert hm
    show m ∈ runList (.cls Char.isDigit) s i → _
    unfold runList isDigitAt
    cases hg : s.get? i with
    | none => intro hm; simp at hm
    | some c =>
      by_cases hc : Char.isDigit c = true
      · simp only [hc, if_true, List.mem_singleton]
        intro hm
        exact ⟨trivial, hm⟩
      · simp [hc]
  obtain ⟨hd, rfl⟩ := hdig
  refine ⟨hd, ?_⟩
  have hj' : i + 1 ≤ j ∧ j ≤ i + 1 + min (runLen cardSepC s (i + 1)) 1 := by
    have := mem_descRange.mp (by simpa using hj)
    omega
  by_cases hjj : j = i + 1
  · exact Or.inl hjj
  · have hr : 1 ≤ runLen cardSepC s (i + 1) := by omega
    obtain ⟨c, hc, hsep⟩ := runLen_pos hr
    refine Or.inr ⟨by omega, ?_⟩
    unfold isCardSepAt
    rw [hc]
    exact hsep

/-- Soundness of the bounded group repetition: a member of `grpList` is
reached by between `lo` and `hi` iteration steps. -/
theorem grpList_sound {step : Nat → List Nat} {P : Nat → Nat → Prop}
    (hstep : ∀ i j, j ∈ step i → P i j) :
    ∀ (hi lo i x : Nat), x ∈ grpList step lo hi i →
      ∃ c, lo ≤ c ∧ c ≤ hi ∧ Chain P c i x := by
  intro hi
  induction hi with
  | zero =>
    intro lo i x hx
    unfold grpList at hx
    by_cases hlo : (lo == 0) = true
    · have hlo' : lo = 0 := by simpa using hlo
      subst hlo'
      rw [if_pos hlo] at hx
      rcases List.mem_singleton.mp hx with rfl
      exact ⟨0, Nat.le_refl 0, Nat.le_refl 0, Chain.zero _⟩
    · rw [if_neg hlo] at hx
      cases hx
  | succ n ih =>
    intro lo i x hx
    unfold grpList at hx
    by_cases hlo : (lo == 0) = true
    · have hlo' : lo = 0 := by simpa using hlo
      subst hlo'
      rw [if_pos hlo] at hx
      rcases List.mem_append.mp hx with hx' | hx'
      · obtain ⟨j, hj, hx''⟩ := List.mem_flatMap.mp hx'
        obtain ⟨c, -, hc2, hch⟩ := ih 0 j x hx''
        exact ⟨c + 1, by omega, by omega, Chain.succ (hstep i j hj) hch⟩
      · rcases List.mem_singleton.mp hx' with rfl
        exact ⟨0, Nat.le_refl 0, by omega, Chain.zero _⟩
    · rw [if_neg hlo] at hx
      obtain ⟨j, hj, hx''⟩ := List.mem_flatMap.mp hx
      obtain ⟨c, hc1, hc2, hch⟩ := ih (lo - 1) j x hx''
      have hne : lo ≠ 0 := by
        intro hh
        exact hlo (by simp [hh])
      exact ⟨c + 1, by omega, by omega, Chain.succ (hstep i j hj) hch⟩

/-- Unfolding equation for the matcher on a concatenation node. -/
theorem runList_seq (a b : RE) (s : List Char) (i : Nat) :
    runList (.seq a b) s i = (runList a s i).flatMap (fun j => runList b s j) :=
  rfl

/-- Unfolding equation for the matcher on a group-repetition node. -/
theorem runList_grp (lo hi : Nat) (r : RE) (s : List Char) (i : Nat) :
    runList (.grp lo hi r) s i = grpList (fun j => runList r s j) lo hi i :=
  rfl

/-- Soundness of a credit-card match: word boundaries at both ends and a
chain of 13 to 19 digit-separator steps in between. -/
theorem card_match_sound {s : List Char} {i j : Nat}
    (h : j ∈ runList cardRE s i) :
    atBoundary s i = true ∧ atBoundary s j = true ∧
      ∃ c, 13 ≤ c ∧ c ≤ 19 ∧ Chain (cardStep s) c i j := by
  unfold cardRE at h
  rw [runList_seq] at h
  obtain ⟨m1, hm1, h2⟩ := List.mem_flatMap.mp h
  obtain ⟨heq1, hbi⟩ := wb_sound hm1
  rw [heq1] at h2
  rw [runList_seq] at h2
  obtain ⟨m2, hm2, h4⟩ := List.mem_flatMap.mp h2
  obtain ⟨heq2, hbj⟩ := wb_sound h4
  subst heq2
  rw [runList_grp] at hm2
  obtain ⟨c, h13, h19, hch⟩ := @grpList_sound
    (fun p => runList cardIterRE s p) (cardStep s)
    (fun a b hb => cardIter_sound hb) 19 13 i j hm2
  exact ⟨hbi, hbj, c, h13, h19, hch⟩

/-- A step chain never moves left. -/
theorem chain_le {s : List Char} {c i j : Nat}
    (h : Chain (cardStep s) c i j) : i ≤ j := by
  induction h with
  | zero => exact Nat.le_refl _
  | succ hstep _ ih =>
    obtain ⟨-, h1 | ⟨h1, -⟩⟩ := hstep <;> omega

/-- Card separators are not digits. -/
theorem cardSep_not_digit {s : List Char} {p : Nat}
    (h : isCardSepAt s p = true) : isDigitAt s p = false := by
  unfold isCardSepAt at h
  unfold isDigitAt
  cases hg : s.get? p with
  | none => rfl
  | some c =>
    rw [hg] at h
    unfold cardSepC at h
    rcases (by simpa using h : c = ' ' ∨ c = '-') with rfl | rfl <;> rfl

/-- Any all-digit interval inside a chain of `c` card steps has at most
`c` positions, because each step consumes exactly one digit. -/
theorem chain_digits_bound {s : List Char} :
    ∀ {c i j : Nat}, Chain (cardStep s) c i j →
      ∀ a b, i ≤ a → b ≤ j →
        (∀ k, a ≤ k → k < b → isDigitAt s k = true) → b - a ≤ c := by
  intro c i j h
  induction h with
  | zero => intro a b ha hb _; omega
  | succ hstep htail ih =>
    rename_i c' i' mid k'
    intro a b ha hb hdig
    obtain ⟨hdigi, hm | ⟨hm, hsep⟩⟩ := hstep
    · subst hm
      have hj := chain_le htail
      by_cases hab : b ≤ a
      · omega
      · have := ih (max a (i' + 1)) b (by omega) hb
          (fun k hk1 hk2 => hdig k (by omega) hk2)
        omega
    · subst hm
      have hj := chain_le htail
      have hnd := cardSep_not_digit hsep
      by_cases hab : b ≤ a
      · omega
      · by_cases hb2 : b ≤ i' + 1
        · omega
        · by_cases ha2 : a ≤ i' + 1
          · have hcontra := hdig (i' + 1) (by omega) (by omega)
            rw [hcontra] at hnd
            cases hnd
          · have := ih a b (by omega) hb hdig
            omega

/-! ## Unfolding equations for the matcher -/

/-- Unfolding equation for the empty pattern. -/
theorem runList_eps (s : List Char) (i : Nat) : runList .eps s i = [i] := rfl

/-- Unfolding equation for a class at a missing position. -/
theorem runList_cls_none {f : Char → Bool} {s : List Char} {i : Nat}
    (hg : s.get? i = none) : runList (.cls f) s i = [] := by
  unfold runList
  rw [hg]

/-- Unfolding equation for a class at a present position. -/
theorem runList_cls_some {f : Char → Bool} {s : List Char} {i : Nat}
    {c : Char} (hg : s.get? i = some c) :
    runList (.cls f) s i = if f c then [i + 1] else [] := by
  unfold runList
  rw [hg]

/-- Unfolding equation for a literal. -/
theorem runList_lit (cs : List Char) (s : List Char) (i : Nat) :
    runList (.lit cs) s i = if litAt cs s i then [i + cs.length] else [] := rfl

/-- Unfolding equation for an alternation. -/
theorem runList_alt (a b : RE) (s : List Char) (i : Nat) :
    runList (.alt a b) s i = runList a s i ++ runList b s i := rfl

/-- Unfolding equation for an unbounded class repetition. -/
theorem runList_many (f : Char → Bool) (lo : Nat) (s : List Char) (i : Nat) :
    runList (.many f lo) s i = descRange (i + runLen f s i) (i + lo) := rfl

/-- Unfolding equation for a bounded class repetition. -/
theorem runList_reps (f : Char → Bool) (lo hi : Nat) (s : List Char)
    (i : Nat) :
    runList (.reps f lo hi) s i =
      descRange (i + min (runLen f s i) hi) (i + lo) := rfl

/-- Unfolding equation for the word boundary. -/
theorem runList_wb (s : List Char) (i : Nat) :
    runList .wb s i = if atBoundary s i then [i] else [] := rfl

/-- The run of a class is bounded by the remaining length. -/
theorem runLen_le (f : Char → Bool) (s : List Char) (i : Nat) :
    runLen f s i ≤ s.length - i := by
  unfold runLen
  have := (List.takeWhile_sublist f (l := s.drop i)).length_le
  rw [List.length_drop] at this
  omega

/-- A successful literal ends within the string. -/
theorem litAt_bound : ∀ (cs : List Char) (s : List Char) (i : Nat),
    litAt cs s i = true → i ≤ s.length → i + cs.length ≤ s.length := by
  intro cs
  induction cs with
  | nil => intro s i _ h; simpa using h
  | cons c t ih =>
    intro s i hl hi
    revert hl
    show litAt (c :: t) s i = true → _
    unfold litAt
    cases hg : s.get? i with
    | none => intro h; cases h
    | some d =>
      intro hl
      have hlt : i < s.length := by
        by_contra hle
        rw [List.get?_eq_none.mpr (by omega)] at hg
        cases hg
      have h2 := (Bool.and_eq_true _ _).mp hl
      have := ih s (i + 1) h2.2 (by omega)
      simp only [List.length_cons]
      omega

/-- Composition of chains along a step relation. -/
theorem chain_closure {P Q : Nat → Nat → Prop} (hrefl : ∀ a, Q a a)
    (hcomp : ∀ a b c, P a b → Q b c → Q a c) :
    ∀ {c i j : Nat}, Chain P c i j → Q i j := by
  intro c i j h
  induction h with
  | zero => exact hrefl _
  | succ hstep _ ih => exact hcomp _ _ _ hstep ih

/-- Every enumerated match end lies at or after the start position and, if
the start is inside the string, at or before the string's end. -/
theorem runList_bounds (r : RE) (s : List Char) :
    ∀ (i j : Nat), j ∈ runList r s i →
      i ≤ j ∧ (i ≤ s.length → j ≤ s.length) := by
  induction r with
  | eps =>
    intro i j h
    rcases List.mem_singleton.mp h with rfl
    exact ⟨Nat.le_refl _, fun h => h⟩
  | cls f =>
    intro i j h
    cases hg : s.get? i with
    | none => rw [runList_cls_none hg] at h; cases h
    | some c =>
      rw [runList_cls_some hg] at h
      have hi : i < s.length := by
        by_contra hle
        rw [List.get?_eq_none.mpr (by omega)] at hg
        cases hg
      by_cases hf : f c = true
      · rw [if_pos hf] at h
        rcases List.mem_singleton.mp h with rfl
        exact ⟨by omega, fun _ => by omega⟩
      · rw [if_neg hf] at h
        cases h
  | lit cs =>
    intro i j h
    rw [runList_lit] at h
    by_cases hl : litAt cs s i = true
    · rw [if_pos hl] at h
      rcases List.mem_singleton.mp h with rfl
      exact ⟨by omega, fun hh => litAt_bound cs s i hl hh⟩
    · rw [if_neg hl] at h
      cases h
  | seq a b iha ihb =>
    intro i j h
    rw [runList_seq] at h
    obtain ⟨m, hm, hj⟩ := List.mem_flatMap.mp h
    obtain ⟨h1, h2⟩ := iha i m hm
    obtain ⟨h3, h4⟩ := ihb m j hj
    exact ⟨by omega, fun hh => h4 (h2 hh)⟩
  | alt a b iha ihb =>
    intro i j h
    rw [runList_alt] at h
    rcases List.mem_append.mp h with h | h
    · exact iha i j h
    · exact ihb i j h
  | many f lo =>
    intro i j h
    rw [runList_many] at h
    obtain ⟨h1, h2⟩ := mem_descRange.mp h
    have hr := runLen_le f s i
    exact ⟨by omega, fun hh => by omega⟩
  | reps f lo hi =>
    intro i j h
    rw [runList_reps] at h
    obtain ⟨h1, h2⟩ := mem_descRange.mp h
    have hr := runLen_le f s i
    have := Nat.min_le_left (runLen f s i) hi
    exact ⟨by omega, fun hh => by omega⟩
  | grp lo hi r ih =>
    intro i j h
    rw [runList_grp] at h
    obtain ⟨c, -, -, hch⟩ := @grpList_sound
      (fun p => runList r s p)
      (fun a b => a ≤ b ∧ (a ≤ s.length → b ≤ s.length))
      (fun a b hb => ih a b hb) hi lo i j h
    exact @chain_closure
      (fun a b => a ≤ b ∧ (a ≤ s.length → b ≤ s.length))
      (fun a b => a ≤ b ∧ (a ≤ s.length → b ≤ s.length))
      (fun a => ⟨Nat.le_refl _, fun hh => hh⟩)
      (fun a b d hab hbd =>
        ⟨Nat.le_trans hab.1 hbd.1, fun hh => hbd.2 (hab.2 hh)⟩) c i j hch
  | wb =>
    intro i j h
    rw [runList_wb] at h
    by_cases hb : atBoundary s i = true
    · rw [if_pos hb] at h
      rcases List.mem_singleton.mp h with rfl
      exact ⟨Nat.le_refl _, fun hh => hh⟩
    · rw [if_neg hb] at h
      cases h

/-- Every interval produced by the scan is a reported match starting
inside the string. -/
theorem findallPosAux_sound {r : RE} {s : List Char} :
    ∀ fuel i p, p ∈ findallPosAux r s fuel i →
      matchAt r s p.1 = some p.2 ∧ p.1 ≤ s.length := by
  intro fuel
  induction fuel with
  | zero => intro i p hp; cases hp
  | succ n ih =>
    intro i p hp
    unfold findallPosAux at hp
    by_cases hlen : s.length < i
    · rw [if_pos hlen] at hp
      cases hp
    · rw [if_neg hlen] at hp
      cases hm : matchAt r s i with
      | some j =>
        simp only [hm] at hp
        by_cases hij : i < j
        · rw [if_pos hij] at hp
          rcases List.mem_cons.mp hp with rfl | hp'
          · exact ⟨hm, by omega⟩
          · exact ih j p hp'
        · rw [if_neg hij] at hp
          rcases List.mem_cons.mp hp with rfl | hp'
          · exact ⟨hm, by omega⟩
          · exact ih (i + 1) p hp'
      | none =>
        simp only [hm] at hp
        exact ih (i + 1) p hp

/-- A reported match end is among the enumerated match ends. -/
theorem matchAt_mem {r : RE} {s : List Char} {i j : Nat}
    (h : matchAt r s i = some j) : j ∈ runList r s i := by
  unfold matchAt at h
  cases hl : runList r s i with
  | nil => rw [hl] at h; cases h
  | cons x t =>
    rw [hl] at h
    injection h with h'
    rw [h']
    exact List.mem_cons_self j t

/-- Digits are word characters. -/
theorem digit_word {s : List Char} {p : Nat} (h : isDigitAt s p = true) :
    wordAt s p = true := by
  unfold isDigitAt at h
  unfold wordAt
  cases hg : s.get? p with
  | none => rw [hg] at h; cases h
  | some c =>
    rw [hg] at h
    replace h : c.isDigit = true := h
    unfold isWordChar
    simp [Char.isAlphanum, h]

/-- There is no word boundary between two digits. -/
theorem no_boundary_of_digits {s : List Char} {p : Nat}
    (h0 : 0 < p) (h2 : isDigitAt s (p - 1) = true)
    (h1 : isDigitAt s p = true) : atBoundary s p = false := by
  cases p with
  | zero => omega
  | succ q =>
    have hq : isDigitAt s q = true := by simpa using h2
    show (wordAt s q != wordAt s (q + 1)) = false
    rw [digit_word hq, digit_word h1]
    rfl

/-- Claim C10: a maximal contiguous run of more than 19 digits (no spaces
or hyphens inside, non-digits or text ends around it) overlaps no
credit-card match interval at all, so `extract_credit_cards` reports
neither a valid nor an invalid finding for any part of that run. -/
theorem c10_overlong_digit_runs_unreported (s : List Char) (a b : Nat)
    (hrun : ∀ k, k < b - a → isDigitAt s (a + k) = true)
    (_hleft : prevDigitAt s a = false)
    (_hright : isDigitAt s b = false)
    (hlen : 19 < b - a) :
    ∀ p ∈ findallPos cardRE s, p.2 ≤ a ∨ b ≤ p.1 := by
  intro p hp
  have hmatch := (findallPosAux_sound _ _ p hp).1
  obtain ⟨hbi, hbj, c, h13, h19, hch⟩ := card_match_sound (matchAt_mem hmatch)
  by_contra hcon
  rw [not_or] at hcon
  obtain ⟨hja, hbi'⟩ := hcon
  have hja' : a < p.2 := by omega
  have hib : p.1 < b := by omega
  have hij := chain_le hch
  by_cases hia : a < p.1
  · -- the match would start inside the run, where no boundary exists
    have hd1 : isDigitAt s p.1 = true := by
      have := hrun (p.1 - a) (by omega)
      simpa [Nat.add_sub_cancel' (by omega : a ≤ p.1)] using this
    have hd0 : isDigitAt s (p.1 - 1) = true := by
      have := hrun (p.1 - 1 - a) (by omega)
      simpa [show a + (p.1 - 1 - a) = p.1 - 1 by omega] using this
    rw [no_boundary_of_digits (by omega) hd0 hd1] at hbi
    cases hbi
  · -- the match starts at or before the run start
    have hia' : p.1 ≤ a := by omega
    by_cases hjb : p.2 < b
    · -- the match would end inside the run, where no boundary exists
      have hd1 : isDigitAt s p.2 = true := by
        have := hrun (p.2 - a) (by omega)
        simpa [show a + (p.2 - a) = p.2 by omega] using this
      have hd0 : isDigitAt s (p.2 - 1) = true := by
        have := hrun (p.2 - 1 - a) (by omega)
        simpa [show a + (p.2 - 1 - a) = p.2 - 1 by omega] using this
      rw [no_boundary_of_digits (by omega) hd0 hd1] at hbj
      cases hbj
    · -- the match would span the whole run: more than 19 digits, but a
      -- chain of at most 19 steps consumes at most 19 digits
      have hcount := chain_digits_bound hch a b hia' (by omega)
        (fun k hk1 hk2 => by
          have := hrun (k - a) (by omega)
          simpa [show a + (k - a) = k by omega] using this)
      omega

/-- Witness for claim C10 on a run of 20 digits: the hypotheses hold for
the text of digits 1 to 0 repeated twice, and the whole-run interval is
not among the scan results. -/
theorem c10_overlong_digit_runs_unreported_witness :
    prevDigitAt (("12345678901234567890").data) 0 = false ∧
      isDigitAt (("12345678901234567890").data) 20 = false ∧
      ¬ ((0, 20) ∈ findallPos cardRE (("12345678901234567890").data)) :=
  ⟨by decide, by decide, fun hmem =>
    absurd
      (c10_overlong_digit_runs_unreported (("12345678901234567890").data)
        0 20 (by decide) (by decide) (by decide) (by decide) (0, 20) hmem)
      (by decide)⟩

/-! ## Lemmas for the phone findings' values (claim C8) -/

/-- A run losing its first character shrinks by one. -/
theorem runLen_succ {f : Char → Bool} {s : List Char} {i : Nat}
    (h : 1 ≤ runLen f s i) : runLen f s (i + 1) = runLen f s i - 1 := by
  unfold runLen at h ⊢
  have htail : s.drop (i + 1) = (s.drop i).tail := (List.tail_drop s i).symm
  cases hd : s.drop i with
  | nil => rw [hd] at h; simp at h
  | cons c t =>
    rw [hd] at h
    rw [htail, hd]
    rw [List.takeWhile_cons] at h ⊢
    by_cases hf : f c = true
    · rw [if_pos hf]
      simp
    · rw [if_neg hf] at h
      simp at h

/-- Every position inside a class run holds a character of the class. -/
theorem runLen_chars {f : Char → Bool} {s : List Char} :
    ∀ (k i : Nat), k < runLen f s i →
      ∃ c, s.get? (i + k) = some c ∧ f c = true := by
  intro k
  induction k with
  | zero =>
    intro i h
    simpa using runLen_pos (by omega)
  | succ m ih =>
    intro i h
    have hs := runLen_succ (f := f) (s := s) (i := i) (by omega)
    have := ih (i + 1) (by omega)
    simpa [show i + 1 + m = i + (m + 1) by omega] using this

/-- A bounded class repetition consumes at least `lo` characters, all of
the class. -/
theorem reps_mem_chars {f : Char → Bool} {lo hi : Nat} {s : List Char}
    {i j : Nat} (h : j ∈ runList (.reps f lo hi) s i) :
    i + lo ≤ j ∧ ∀ k, i ≤ k → k < j →
      ∃ c, s.get? k = some c ∧ f c = true := by
  rw [runList_reps] at h
  obtain ⟨h1, h2⟩ := mem_descRange.mp h
  refine ⟨h1, fun k hk1 hk2 => ?_⟩
  have hmin := Nat.min_le_left (runLen f s i) hi
  have hlt : k - i < runLen f s i := by omega
  have := runLen_chars (k - i) i hlt
  simpa [show i + (k - i) = k by omega] using this

/-- Case analysis for an optional group `(?:r)?`. -/
theorem grp01_cases {r : RE} {s : List Char} {i j : Nat}
    (h : j ∈ runList (.grp 0 1 r) s i) : j = i ∨ j ∈ runList r s i := by
  have h' : j ∈ ((runList r s i).flatMap (fun t => ([t] : List Nat))) ++ [i] :=
    h
  rcases List.mem_append.mp h' with h'' | h''
  · obtain ⟨t, ht, h3⟩ := List.mem_flatMap.mp h''
    rcases List.mem_singleton.mp h3 with rfl
    exact Or.inr ht
  · rcases List.mem_singleton.mp h'' with rfl
    exact Or.inl rfl

/-- Digits are not whitespace. -/
theorem digit_not_space {c : Char} (h : c.isDigit = true) :
    isPySpace c = false := by
  by_contra hsp
  rw [Bool.not_eq_false] at hsp
  unfold isPySpace at hsp
  rcases (by simpa [or_assoc] using hsp :
      c = ' ' ∨ c = '\t' ∨ c = '\n' ∨ c = '\r' ∨ c = '\x0b' ∨ c = '\x0c')
    with rfl | rfl | rfl | rfl | rfl | rfl <;>
    exact absurd h (by decide)

/-- Every phone match starts with a plus sign, an opening parenthesis or a
digit; in particular not with whitespace. -/
theorem phone_first {s : List Char} {i j : Nat}
    (h : j ∈ runList phoneRE s i) :
    ∃ c, s.get? i = some c ∧ isPySpace c = false := by
  unfold phoneRE at h
  rw [runList_seq] at h
  obtain ⟨m1, hm1, hrest⟩ := List.mem_flatMap.mp h
  rcases grp01_cases hm1 with rfl | hplus
  · -- no international prefix: the area part starts at `i`
    rw [runList_seq] at hrest
    obtain ⟨m2, hm2, -⟩ := List.mem_flatMap.mp hrest
    unfold phoneAreaRE at hm2
    rw [runList_alt] at hm2
    rcases List.mem_append.mp hm2 with hp | hd
    · rw [runList_seq] at hp
      obtain ⟨m3, hm3, -⟩ := List.mem_flatMap.mp hp
      revert hm3
      show m3 ∈ runList (.cls (fun c => c == '(')) s m1 → _
      cases hg : s.get? m1 with
      | none => rw [runList_cls_none hg]; intro hh; cases hh
      | some c =>
        rw [runList_cls_some hg]
        by_cases hc : (c == '(') = true
        · rw [if_pos hc]
          intro _
          exact ⟨c, rfl, by rcases (by simpa using hc : c = '(') with rfl; decide⟩
        · rw [if_neg hc]
          intro hh
          cases hh
    · obtain ⟨hge, hchars⟩ := reps_mem_chars hd
      obtain ⟨c, hg, hdig⟩ := hchars m1 (Nat.le_refl _) (by omega)
      exact ⟨c, hg, digit_not_space hdig⟩
  · -- the international prefix is present and starts with a plus sign
    rw [runList_seq] at hplus
    obtain ⟨m3, hm3, -⟩ := List.mem_flatMap.mp hplus
    revert hm3
    show m3 ∈ runList (.cls (fun c => c == '+')) s i → _
    cases hg : s.get? i with
    | none => rw [runList_cls_none hg]; intro hh; cases hh
    | some c =>
      rw [runList_cls_some hg]
      by_cases hc : (c == '+') = true
      · rw [if_pos hc]
        intro _
        exact ⟨c, rfl, by rcases (by simpa using hc : c = '+') with rfl; decide⟩
      · rw [if_neg hc]
        intro hh
        cases hh

/-- Every phone match is nonempty and ends with a digit. -/
theorem phone_last {s : List Char} {i j : Nat}
    (h : j ∈ runList phoneRE s i) :
    i < j ∧ ∃ c, s.get? (j - 1) = some c ∧ c.isDigit = true := by
  unfold phoneRE at h
  rw [runList_seq] at h
  obtain ⟨m1, hm1, h⟩ := List.mem_flatMap.mp h
  have hi1 : i ≤ m1 := (runList_bounds _ s i m1 hm1).1
  rw [runList_seq] at h
  obtain ⟨m2, hm2, h⟩ := List.mem_flatMap.mp h
  have h12 : m1 < m2 := by
    unfold phoneAreaRE at hm2
    rw [runList_alt] at hm2
    rcases List.mem_append.mp hm2 with hp | hd
    · rw [runList_seq] at hp
      obtain ⟨m3, hm3, hrest3⟩ := List.mem_flatMap.mp hp
      have h3 : m3 ∈ runList (.cls (fun c => c == '(')) s m1 := hm3
      have hm3' : m1 < m3 := by
        revert h3
        cases hg : s.get? m1 with
        | none => rw [runList_cls_none hg]; intro hh; cases hh
        | some c =>
          rw [runList_cls_some hg]
          by_cases hc : (c == '(') = true
          · rw [if_pos hc]
            intro hh
            rcases List.mem_singleton.mp hh with rfl
            omega
          · rw [if_neg hc]
            intro hh
            cases hh
      have := (runList_bounds _ s m3 m2 hrest3).1
      omega
    · have := (reps_mem_chars hd).1
      omega
  rw [runList_seq] at h
  obtain ⟨m3, hm3, h⟩ := List.mem_flatMap.mp h
  have h23 : m2 ≤ m3 := (runList_bounds _ s m2 m3 hm3).1
  rw [runList_seq] at h
  obtain ⟨m4, hm4, h⟩ := List.mem_flatMap.mp h
  have h34 : m3 ≤ m4 := (runList_bounds _ s m3 m4 hm4).1
  rw [runList_seq] at h
  obtain ⟨m5, hm5, h⟩ := List.mem_flatMap.mp h
  have h45 : m4 ≤ m5 := (runList_bounds _ s m4 m5 hm5).1
  rw [runList_seq] at h
  obtain ⟨m6, hm6, hext⟩ := List.mem_flatMap.mp h
  obtain ⟨h56, hchars6⟩ := reps_mem_chars hm6
  rcases grp01_cases hext with rfl | hiter
  · refine ⟨by omega, ?_⟩
    obtain ⟨c, hg, hdig⟩ := hchars6 (j - 1) (by omega) (by omega)
    exact ⟨c, hg, hdig⟩
  · rw [runList_seq] at hiter
    obtain ⟨e1, he1, hiter⟩ := List.mem_flatMap.mp hiter
    have hm6e1 : m6 ≤ e1 := (runList_bounds _ s m6 e1 he1).1
    rw [runList_seq] at hiter
    obtain ⟨e2, he2, hiter⟩ := List.mem_flatMap.mp hiter
    have he12 : e1 ≤ e2 := (runList_bounds _ s e1 e2 he2).1
    rw [runList_seq] at hiter
    obtain ⟨e3, he3, hiter⟩ := List.mem_flatMap.mp hiter
    have he23 : e2 ≤ e3 := (runList_bounds _ s e2 e3 he3).1
    obtain ⟨hge, hchars⟩ := reps_mem_chars hiter
    refine ⟨by omega, ?_⟩
    obtain ⟨c, hg, hdig⟩ := hchars (j - 1) (by omega) (by omega)
    exact ⟨c, hg, hdig⟩

/-- The head of a matched slice. -/
theorem sliceStr_head {s : List Char} {i j : Nat} (hij : i < j)
    (hj : j ≤ s.length) : (sliceStr s i j).head? = s.get? i := by
  unfold sliceStr
  rw [← get?_eq_head?_drop]
  exact List.get?_take hij

/-- The last element of a matched slice. -/
theorem sliceStr_getLast {s : List Char} {i j : Nat} (hij : i < j)
    (hj : j ≤ s.length) : (sliceStr s i j).getLast? = s.get? (j - 1) := by
  unfold sliceStr
  rw [List.getLast?_eq_get?]
  have hlen : ((s.take j).drop i).length = j - i := by
    rw [List.length_drop, List.length_take]
    omega
  rw [hlen, List.get?_drop]
  rw [show i + (j - i - 1) = j - 1 by omega]
  exact List.get?_take (by omega)

/-- Python `strip()` is the identity on a string with no whitespace at
either end. -/
theorem pyStrip_eq_self {l : List Char}
    (h1 : ∀ c, l.head? = some c → isPySpace c = false)
    (h2 : ∀ c, l.getLast? = some c → isPySpace c = false) :
    pyStrip l = l := by
  unfold pyStrip
  have hd : l.dropWhile isPySpace = l := by
    cases l with
    | nil => rfl
    | cons a t =>
      rw [List.dropWhile_cons, if_neg]
      simp [h1 a rfl]
  rw [hd]
  have hrev : l.reverse.dropWhile isPySpace = l.reverse := by
    cases hr : l.reverse with
    | nil => rfl
    | cons a t =>
      rw [List.dropWhile_cons, if_neg]
      have hl : l.getLast? = some a := by
        rw [← List.head?_reverse, hr]
        rfl
      simp [h2 a hl]
  rw [hrev, List.reverse_reverse]

/-- The strip applied to a phone match never changes it: no phone match
begins or ends with whitespace. -/
theorem phone_value_no_strip {s : List Char} {m : List Char}
    (hm : m ∈ findall phoneRE s) : pyStrip m = m := by
  unfold findall at hm
  rw [List.mem_map] at hm
  obtain ⟨p, hp, rfl⟩ := hm
  obtain ⟨hmatch, hstart⟩ := findallPosAux_sound _ _ p hp
  have hmem := matchAt_mem hmatch
  obtain ⟨hle, hbound⟩ := runList_bounds phoneRE s p.1 p.2 hmem
  have hj : p.2 ≤ s.length := hbound hstart
  obtain ⟨hij, c2, hg2, hd2⟩ := phone_last hmem
  obtain ⟨c1, hg1, hsp1⟩ := phone_first hmem
  apply pyStrip_eq_self
  · intro c hc
    rw [sliceStr_head hij hj, hg1] at hc
    injection hc with hc
    rw [← hc]
    exact hsp1
  · intro c hc
    rw [sliceStr_getLast hij hj, hg2] at hc
    injection hc with hc
    rw [← hc]
    exact digit_not_space hd2

/-- Claim C8: for every text, each finding in the emails, urls and phones
categories has a value equal to the exact substring matched by the
category's pattern; in particular the strip applied to phone candidates
never changes the matched substring. -/
theorem c8_values_equal_matches (text : List Char) :
    (extract_emails text).map Finding.value =
      findall (emailRE text.length) text ∧
    (extract_urls text).map Finding.value = findall urlRE text ∧
    (extract_phone_numbers text).map Finding.value = findall phoneRE text := by
  refine ⟨?_, ?_, ?_⟩
  · unfold extract_emails
    rw [List.map_map]
    conv_rhs => rw [← List.map_id (findall (emailRE text.length) text)]
    exact List.map_congr_left (fun a _ => rfl)
  · unfold extract_urls
    rw [List.map_map]
    conv_rhs => rw [← List.map_id (findall urlRE text)]
    exact List.map_congr_left (fun a _ => rfl)
  · unfold extract_phone_numbers
    rw [List.map_map]
    conv_rhs => rw [← List.map_id (findall phoneRE text)]
    exact List.map_congr_left (fun a ha => phone_value_no_strip ha)

/-! ## Helper lemmas for the concatenation law (claim C7) -/

/-- Congruence of `flatMap` over the members of the list. -/
theorem flatMap_congr_mem {l : List Nat} {f g : Nat → List Nat}
    (h : ∀ a ∈ l, f a = g a) : l.flatMap f = l.flatMap g := by
  induction l with
  | nil => rfl
  | cons a t ih =>
    simp only [List.flatMap_cons]
    rw [h a (List.mem_cons_self a t),
      ih (fun b hb => h b (List.mem_cons_of_mem a hb))]

/-- Filtering distributes into `flatMap`. -/
theorem filter_flatMap (l : List Nat) (f : Nat → List Nat) (p : Nat → Bool) :
    (l.flatMap f).filter p = l.flatMap (fun a => (f a).filter p) := by
  induction l with
  | nil => rfl
  | cons a t ih => simp only [List.flatMap_cons, List.filter_append, ih]

/-- Mapping distributes into `flatMap`. -/
theorem map_flatMap_out (l : List Nat) (f : Nat → List Nat) (g : Nat → Nat) :
    (l.flatMap f).map g = l.flatMap (fun a => (f a).map g) := by
  induction l with
  | nil => rfl
  | cons a t ih => simp only [List.flatMap_cons, List.map_append, ih]

/-- A `flatMap` over a mapped list. -/
theorem flatMap_map_in (l : List Nat) (g : Nat → Nat) (f : Nat → List Nat) :
    (l.map g).flatMap f = l.flatMap (fun a => f (g a)) := by
  induction l with
  | nil => rfl
  | cons a t ih => simp only [List.map_cons, List.flatMap_cons, ih]

/-- Filtering a descending list by an upper bound truncates it. -/
theorem filter_descRangeAux (bot m : Nat) :
    ∀ n, (descRangeAux bot n).filter (fun x => decide (x ≤ m)) =
      descRangeAux bot (min n (m + 1 - bot)) := by
  intro n
  induction n with
  | zero => simp [descRangeAux]
  | succ k ih =>
    rw [show descRangeAux bot (k + 1) = (bot + k) :: descRangeAux bot k
      from rfl]
    rw [List.filter_cons]
    by_cases hbk : bot + k ≤ m
    · rw [if_pos (by simpa using hbk)]
      rw [ih]
      rw [show min (k + 1) (m + 1 - bot) = k + 1 by omega,
        show min k (m + 1 - bot) = k by omega]
      rfl
    · rw [if_neg (by simpa using hbk)]
      rw [ih]
      congr 1
      omega

/-- Shifting a descending list. -/
theorem map_descRangeAux (bot d : Nat) :
    ∀ n, (descRangeAux bot n).map (fun x => d + x) =
      descRangeAux (d + bot) n := by
  intro n
  induction n with
  | zero => rfl
  | succ k ih =>
    simp only [descRangeAux, List.map_cons, ih]
    congr 1
    omega

/-- The class run in a prefix is the concatenation run cut at the prefix
end. -/
theorem runLen_append (f : Char → Bool) (u v : List Char) (i : Nat) :
    runLen f u i = min (runLen f (u ++ v) i) (u.length - i) := by
  by_cases hi : i ≤ u.length
  · unfold runLen
    rw [List.drop_append_of_le_length hi]
    rw [List.takeWhile_append]
    by_cases hall : ((u.drop i).takeWhile f).length = (u.drop i).length
    · rw [if_pos hall]
      rw [List.length_append, hall, List.length_drop]
      omega
    · rw [if_neg hall]
      have hle := (List.takeWhile_sublist f (l := u.drop i)).length_le
      rw [List.length_drop] at hle hall
      omega
  · have h1 : runLen f u i = 0 := by
      unfold runLen
      rw [List.drop_eq_nil_of_le (by omega)]
      rfl
    rw [h1]
    omega

/-- A literal found in a prefix is found in the concatenation. -/
theorem litAt_append_left : ∀ (cs : List Char) (u v : List Char) (i : Nat),
    litAt cs u i = true → litAt cs (u ++ v) i = true := by
  intro cs
  induction cs with
  | nil => intro u v i _; rfl
  | cons c t ih =>
    intro u v i h
    revert h
    show litAt (c :: t) u i = true → litAt (c :: t) (u ++ v) i = true
    unfold litAt
    cases hg : u.get? i with
    | none => intro h; cases h
    | some d =>
      intro h
      replace h : (c == d && litAt t u (i + 1)) = true := h
      have hlt : i < u.length := by
        by_contra hle
        rw [List.get?_eq_none.mpr (by omega)] at hg
        cases hg
      rw [List.get?_append hlt, hg]
      show (c == d && litAt t (u ++ v) (i + 1)) = true
      obtain ⟨h1, h2⟩ := (Bool.and_eq_true _ _).mp h
      rw [h1, ih u v (i + 1) h2]
      rfl

/-- A literal found in the concatenation within the prefix bound is found
in the prefix. -/
theorem litAt_append_restrict : ∀ (cs : List Char) (u v : List Char)
    (i : Nat), litAt cs (u ++ v) i = true → i + cs.length ≤ u.length →
    litAt cs u i = true := by
  intro cs
  induction cs with
  | nil => intro u v i _ _; rfl
  | cons c t ih =>
    intro u v i h hlen
    revert h
    show litAt (c :: t) (u ++ v) i = true → litAt (c :: t) u i = true
    unfold litAt
    have hlt : i < u.length := by
      simp only [List.length_cons] at hlen
      omega
    rw [List.get?_append hlt]
    cases hg : u.get? i with
    | none =>
      rw [List.get?_eq_none] at hg
      omega
    | some d =>
      intro h
      replace h : (c == d && litAt t (u ++ v) (i + 1)) = true := h
      show (c == d && litAt t u (i + 1)) = true
      obtain ⟨h1, h2⟩ := (Bool.and_eq_true _ _).mp h
      rw [h1, ih u v (i + 1) h2 (by
        simp only [List.length_cons] at hlen
        omega)]
      rfl

/-- A literal in the suffix, viewed from the concatenation. -/
theorem litAt_append_shift : ∀ (cs : List Char) (u v : List Char) (i : Nat),
    litAt cs (u ++ v) (u.length + i) = litAt cs v i := by
  intro cs
  induction cs with
  | nil => intro u v i; rfl
  | cons c t ih =>
    intro u v i
    show litAt (c :: t) (u ++ v) (u.length + i) = litAt (c :: t) v i
    unfold litAt
    rw [List.get?_append_right (by omega), Nat.add_sub_cancel_left]
    cases v.get? i with
    | none => rfl
    | some d =>
      rw [show u.length + i + 1 = u.length + (i + 1) by omega, ih]

/-- Word-character test inside the prefix. -/
theorem wordAt_append_left {u v : List Char} {i : Nat} (h : i < u.length) :
    wordAt (u ++ v) i = wordAt u i := by
  unfold wordAt
  rw [List.get?_append h]

/-- Word-character test in the suffix. -/
theorem wordAt_append_right (u v : List Char) (i : Nat) :
    wordAt (u ++ v) (u.length + i) = wordAt v i := by
  unfold wordAt
  rw [List.get?_append_right (by omega), Nat.add_sub_cancel_left]

/-- Previous-character test inside the prefix. -/
theorem prevWordAt_append_left {u v : List Char} {i : Nat}
    (h : i ≤ u.length) : prevWordAt (u ++ v) i = prevWordAt u i := by
  cases i with
  | zero => rfl
  | succ i' =>
    show wordAt (u ++ v) i' = wordAt u i'
    exact wordAt_append_left (by omega)

/-- Previous-character test in the suffix, away from the boundary. -/
theorem prevWordAt_append_right (u v : List Char) {i : Nat} (h : 1 ≤ i) :
    prevWordAt (u ++ v) (u.length + i) = prevWordAt v i := by
  cases i with
  | zero => omega
  | succ i' =>
    show wordAt (u ++ v) (u.length + i') = wordAt v i'
    exact wordAt_append_right u v i'

/-- Word boundary inside the prefix (using, at the junction itself, that
the first suffix character is not a word character). -/
theorem atBoundary_append_left {u v : List Char} {i : Nat}
    (hi : i ≤ u.length) (hw : i = u.length → wordAt (u ++ v) u.length = false) :
    atBoundary (u ++ v) i = atBoundary u i := by
  unfold atBoundary
  by_cases h : i < u.length
  · rw [wordAt_append_left h, prevWordAt_append_left (by omega)]
  · have hieq : i = u.length := by omega
    subst hieq
    rw [prevWordAt_append_left (Nat.le_refl _), hw rfl]
    have hu : wordAt u u.length = false := by
      unfold wordAt
      rw [List.get?_eq_none.mpr (Nat.le_refl _)]
    rw [hu]

/-- Word boundary in the suffix (using, at the junction itself, that the
last prefix character is not a word character). -/
theorem atBoundary_append_right {u v : List Char} {i : Nat}
    (hprev : prevWordAt (u ++ v) u.length = false) :
    atBoundary (u ++ v) (u.length + i) = atBoundary v i := by
  unfold atBoundary
  cases i with
  | zero =>
    have hw := wordAt_append_right u v 0
    rw [Nat.add_zero] at hw
    rw [Nat.add_zero, hprev, hw]
    rfl
  | succ i' =>
    rw [wordAt_append_right, prevWordAt_append_right u v (by omega)]

/-- Members rejected by the filter that contribute nothing can be filtered
away before a `flatMap`. -/
theorem flatMap_filter_irrel {L : List Nat} {p : Nat → Bool}
    {g : Nat → List Nat} (h : ∀ m ∈ L, p m = false → g m = []) :
    (L.filter p).flatMap g = L.flatMap g := by
  induction L with
  | nil => rfl
  | cons a t ih =>
    rw [List.filter_cons]
    by_cases hp : p a = true
    · rw [if_pos hp]
      simp only [List.flatMap_cons]
      rw [ih (fun m hm => h m (List.mem_cons_of_mem a hm))]
    · rw [if_neg hp]
      simp only [List.flatMap_cons]
      rw [h a (List.mem_cons_self a t) (by
          cases hpa : p a
          · rfl
          · exact absurd hpa hp),
        ih (fun m hm => h m (List.mem_cons_of_mem a hm))]
      rfl

/-- Elements of a bounded group repetition lie at or after its start. -/
theorem grpList_ge {step : Nat → List Nat}
    (hstep : ∀ a b, b ∈ step a → a ≤ b) :
    ∀ (hi lo i x : Nat), x ∈ grpList step lo hi i → i ≤ x := by
  intro hi lo i x hx
  obtain ⟨c, -, -, hch⟩ :=
    @grpList_sound step (fun a b => a ≤ b) hstep hi lo i x hx
  exact @chain_closure (fun a b => a ≤ b) (fun a b => a ≤ b)
    (fun a => Nat.le_refl a) (fun a b d h1 h2 => Nat.le_trans h1 h2) c i x hch

/-- Restriction: matching inside the prefix `u` of `u ++ v` and keeping
only ends within `u` is the same as matching in `u`, provided either the
pattern contains no word boundary or the first character of `v` (if any)
is not a word character. -/
theorem runList_restrict (u v : List Char) :
    ∀ (r : RE), (containsWb r = true → wordAt (u ++ v) u.length = false) →
    ∀ i, i ≤ u.length →
      runList r u i =
        (runList r (u ++ v) i).filter (fun x => decide (x ≤ u.length)) := by
  intro r
  induction r with
  | eps =>
    intro _ i hi
    rw [runList_eps, runList_eps, List.filter_cons, if_pos (by simpa using hi)]
    rfl
  | cls f =>
    intro _ i hi
    by_cases hlt : i < u.length
    · cases hg : u.get? i with
      | none =>
        rw [List.get?_eq_none] at hg
        omega
      | some c =>
        have hgc : (u ++ v).get? i = some c := by
          rw [List.get?_append hlt]
          exact hg
        rw [runList_cls_some hg, runList_cls_some hgc]
        by_cases hf : f c = true
        · rw [if_pos hf, List.filter_cons, if_pos (by simp; omega)]
          rfl
        · rw [if_neg hf]
          rfl
    · have hieq : i = u.length := by omega
      subst hieq
      rw [runList_cls_none (List.get?_eq_none.mpr (Nat.le_refl _))]
      cases hg : (u ++ v).get? u.length with
      | none => rw [runList_cls_none hg]; rfl
      | some c =>
        rw [runList_cls_some hg]
        by_cases hf : f c = true
        · rw [if_pos hf, List.filter_cons, if_neg (by simp)]
          rfl
        · rw [if_neg hf]
          rfl
  | lit cs =>
    intro _ i hi
    rw [runList_lit, runList_lit]
    by_cases hc : litAt cs (u ++ v) i = true
    · rw [if_pos hc]
      by_cases hfit : i + cs.length ≤ u.length
      · rw [if_pos (litAt_append_restrict cs u v i hc hfit),
          List.filter_cons, if_pos (by simpa using hfit)]
        rfl
      · have hu : litAt cs u i = false := by
          cases hl : litAt cs u i
          · rfl
          · exact absurd (litAt_bound cs u i hl hi) hfit
        rw [hu, if_neg (by simp), List.filter_cons,
          if_neg (by simpa using hfit)]
        rfl
    · have hu : litAt cs u i = false := by
        cases hl : litAt cs u i
        · rfl
        · exact absurd (litAt_append_left cs u v i hl) hc
      rw [hu, if_neg (by simp), if_neg hc]
      rfl
  | seq a b iha ihb =>
    intro hwb i hi
    have hwa : containsWb a = true → wordAt (u ++ v) u.length = false :=
      fun h => hwb (by
        show (containsWb a || containsWb b) = true
        rw [h]
        rfl)
    have hwbb : containsWb b = true → wordAt (u ++ v) u.length = false :=
      fun h => hwb (by
        show (containsWb a || containsWb b) = true
        rw [h]
        simp)
    rw [runList_seq, runList_seq, iha hwa i hi]
    rw [flatMap_congr_mem (fun m hm => ihb hwbb m
      (by simpa using (List.mem_filter.mp hm).2))]
    rw [flatMap_filter_irrel (fun m hm hp => by
      rw [List.filter_eq_nil]
      intro x hx
      have := (runList_bounds b (u ++ v) m x hx).1
      simp at hp ⊢
      omega)]
    rw [filter_flatMap]
  | alt a b iha ihb =>
    intro hwb i hi
    have hwa : containsWb a = true → wordAt (u ++ v) u.length = false :=
      fun h => hwb (by
        show (containsWb a || containsWb b) = true
        rw [h]
        rfl)
    have hwbb : containsWb b = true → wordAt (u ++ v) u.length = false :=
      fun h => hwb (by
        show (containsWb a || containsWb b) = true
        rw [h]
        simp)
    rw [runList_alt, runList_alt, List.filter_append, iha hwa i hi,
      ihb hwbb i hi]
  | many f lo =>
    intro _ i hi
    rw [runList_many, runList_many, runLen_append f u v i]
    unfold descRange
    rw [filter_descRangeAux]
    congr 1
    omega
  | reps f lo hi =>
    intro _ i hile
    rw [runList_reps, runList_reps, runLen_append f u v i]
    unfold descRange
    rw [filter_descRangeAux]
    congr 1
    omega
  | grp lo hi r ih =>
    intro hwb i hile
    have hwr : containsWb r = true → wordAt (u ++ v) u.length = false :=
      fun h => hwb h
    rw [runList_grp, runList_grp]
    clear hwb
    induction hi generalizing lo i with
    | zero =>
      unfold grpList
      by_cases hlo : (lo == 0) = true
      · rw [if_pos hlo, List.filter_cons, if_pos (by simpa using hile)]
        rfl
      · rw [if_neg hlo]
        rfl
    | succ k ihk =>
      unfold grpList
      by_cases hlo : (lo == 0) = true
      · rw [if_pos hlo, if_pos hlo]
        rw [List.filter_append, filter_flatMap]
        rw [ih hwr i hile]
        rw [flatMap_congr_mem (fun m hm => ihk 0 m
          (by simpa using (List.mem_filter.mp hm).2))]
        rw [flatMap_filter_irrel (fun m hm hp => by
          rw [List.filter_eq_nil]
          intro x hx
          have := grpList_ge
            (fun a b hb => (runList_bounds r (u ++ v) a b hb).1) k 0 m x hx
          simp at hp ⊢
          omega)]
        rw [List.filter_cons, if_pos (by simpa using hile)]
        rfl
      · rw [if_neg hlo, if_neg hlo]
        rw [filter_flatMap]
        rw [ih hwr i hile]
        rw [flatMap_congr_mem (fun m hm => ihk (lo - 1) m
          (by simpa using (List.mem_filter.mp hm).2))]
        rw [flatMap_filter_irrel (fun m hm hp => by
          rw [List.filter_eq_nil]
          intro x hx
          have := grpList_ge
            (fun a b hb => (runList_bounds r (u ++ v) a b hb).1) k (lo - 1)
            m x hx
          simp at hp ⊢
          omega)]
  | wb =>
    intro hwb i hi
    rw [runList_wb, runList_wb,
      atBoundary_append_left hi (fun _ => hwb rfl)]
    by_cases hb : atBoundary u i = true
    · rw [if_pos hb, List.filter_cons, if_pos (by simpa using hi)]
      rfl
    · rw [if_neg hb]
      rfl

/-- The class run in the suffix, viewed from the concatenation. -/
theorem runLen_shift (f : Char → Bool) (u v : List Char) (i : Nat) :
    runLen f (u ++ v) (u.length + i) = runLen f v i := by
  unfold runLen
  rw [List.drop_append]

/-- Shift: matching in the suffix `v` of `u ++ v` is the matching in `v`
with all positions shifted by the length of `u`, provided either the
pattern contains no word boundary or the last character of `u` (if any) is
not a word character. -/
theorem runList_shift (u v : List Char) :
    ∀ (r : RE), (containsWb r = true → prevWordAt (u ++ v) u.length = false) →
    ∀ i, runList r (u ++ v) (u.length + i) =
      (runList r v i).map (fun x => u.length + x) := by
  intro r
  induction r with
  | eps => intro _ i; rfl
  | cls f =>
    intro _ i
    have hgc : (u ++ v).get? (u.length + i) = v.get? i := by
      rw [List.get?_append_right (by omega), Nat.add_sub_cancel_left]
    cases hg : v.get? i with
    | none =>
      rw [runList_cls_none (by rw [hgc]; exact hg), runList_cls_none hg]
      rfl
    | some c =>
      rw [runList_cls_some (by rw [hgc]; exact hg : (u ++ v).get?
        (u.length + i) = some c), runList_cls_some hg]
      by_cases hf : f c = true
      · rw [if_pos hf, if_pos hf]
        show [u.length + i + 1] = [u.length + (i + 1)]
        rw [Nat.add_assoc]
      · rw [if_neg hf, if_neg hf]
        rfl
  | lit cs =>
    intro _ i
    rw [runList_lit, runList_lit, litAt_append_shift]
    by_cases hc : litAt cs v i = true
    · rw [if_pos hc, if_pos hc]
      show [u.length + i + cs.length] = [u.length + (i + cs.length)]
      rw [Nat.add_assoc]
    · rw [if_neg hc, if_neg hc]
      rfl
  | seq a b iha ihb =>
    intro hwb i
    have hwa : containsWb a = true → prevWordAt (u ++ v) u.length = false :=
      fun h => hwb (by
        show (containsWb a || containsWb b) = true
        rw [h]
        rfl)
    have hwbb : containsWb b = true → prevWordAt (u ++ v) u.length = false :=
      fun h => hwb (by
        show (containsWb a || containsWb b) = true
        rw [h]
        simp)
    rw [runList_seq, runList_seq, iha hwa i, flatMap_map_in]
    rw [flatMap_congr_mem (fun m _ => ihb hwbb m)]
    rw [map_flatMap_out]
  | alt a b iha ihb =>
    intro hwb i
    have hwa : containsWb a = true → prevWordAt (u ++ v) u.length = false :=
      fun h => hwb (by
        show (containsWb a || containsWb b) = true
        rw [h]
        rfl)
    have hwbb : containsWb b = true → prevWordAt (u ++ v) u.length = false :=
      fun h => hwb (by
        show (containsWb a || containsWb b) = true
        rw [h]
        simp)
    rw [runList_alt, runList_alt, List.map_append, iha hwa i, ihb hwbb i]
  | many f lo =>
    intro _ i
    rw [runList_many, runList_many, runLen_shift]
    unfold descRange
    rw [map_descRangeAux]
    congr 1
    · omega
    · omega
  | reps f lo hi =>
    intro _ i
    rw [runList_reps, runList_reps, runLen_shift]
    unfold descRange
    rw [map_descRangeAux]
    congr 1
    · omega
    · omega
  | grp lo hi r ih =>
    intro hwb i
    have hwr : containsWb r = true → prevWordAt (u ++ v) u.length = false :=
      fun h => hwb h
    rw [runList_grp, runList_grp]
    clear hwb
    induction hi generalizing lo i with
    | zero =>
      unfold grpList
      by_cases hlo : (lo == 0) = true
      · rw [if_pos hlo, if_pos hlo]
        rfl
      · rw [if_neg hlo, if_neg hlo]
        rfl
    | succ k ihk =>
      unfold grpList
      by_cases hlo : (lo == 0) = true
      · rw [if_pos hlo, if_pos hlo]
        rw [List.map_append, ih hwr i, flatMap_map_in]
        rw [flatMap_congr_mem (fun m _ => ihk 0 m)]
        rw [map_flatMap_out]
        rfl
      · rw [if_neg hlo, if_neg hlo]
        rw [ih hwr i, flatMap_map_in]
        rw [flatMap_congr_mem (fun m _ => ihk (lo - 1) m)]
        rw [map_flatMap_out]
  | wb =>
    intro hwb i
    rw [runList_wb, runList_wb, atBoundary_append_right (hwb rfl)]
    by_cases hb : atBoundary v i = true
    · rw [if_pos hb, if_pos hb]
      rfl
    · rw [if_neg hb, if_neg hb]
      rfl

/-- Scanning past the end of the string yields nothing. -/
theorem findallPosAux_past {r : RE} {s : List Char} {i : Nat}
    (h : s.length < i) : ∀ fuel, findallPosAux r s fuel i = [] := by
  intro fuel
  cases fuel with
  | zero => rfl
  | succ n =>
    unfold findallPosAux
    rw [if_pos h]

/-- One scanning step inside the string, at a reported match. -/
theorem findallPosAux_step_some (r : RE) (s : List Char) {n i j : Nat}
    (h : ¬ s.length < i) (hm : matchAt r s i = some j) :
    findallPosAux r s (n + 1) i =
      if i < j then (i, j) :: findallPosAux r s n j
      else (i, j) :: findallPosAux r s n (i + 1) := by
  conv_lhs => unfold findallPosAux
  rw [if_neg h, hm]

/-- One scanning step inside the string, at a failed match. -/
theorem findallPosAux_step_none (r : RE) (s : List Char) {n i : Nat}
    (h : ¬ s.length < i) (hm : matchAt r s i = none) :
    findallPosAux r s (n + 1) i = findallPosAux r s n (i + 1) := by
  conv_lhs => unfold findallPosAux
  rw [if_neg h, hm]

/-- The scan does not depend on the fuel, once the fuel is sufficient. -/
theorem findallPosAux_fuel {r : RE} {s : List Char} :
    ∀ (f1 f2 i : Nat), s.length + 2 ≤ f1 + i → s.length + 2 ≤ f2 + i →
      findallPosAux r s f1 i = findallPosAux r s f2 i := by
  intro f1
  induction f1 with
  | zero =>
    intro f2 i h1 _
    rw [findallPosAux_past (by omega) f2]
    rfl
  | succ a ih =>
    intro f2 i h1 h2
    cases f2 with
    | zero =>
      rw [findallPosAux_past (by omega) (a + 1)]
      rfl
    | succ b =>
      by_cases hpast : s.length < i
      · rw [findallPosAux_past hpast, findallPosAux_past hpast]
      · cases hm : matchAt r s i with
        | none =>
          rw [findallPosAux_step_none r s hpast hm,
            findallPosAux_step_none r s hpast hm]
          exact ih b (i + 1) (by omega) (by omega)
        | some j =>
          rw [findallPosAux_step_some r s hpast hm,
            findallPosAux_step_some r s hpast hm]
          by_cases hij : i < j
          · rw [if_pos hij, if_pos hij, ih b j (by omega) (by omega)]
          · rw [if_neg hij, if_neg hij, ih b (i + 1) (by omega) (by omega)]

/-- The reported match in the prefix agrees with the concatenation's, when
no path spans the boundary. -/
theorem matchAt_restrict_eq {u v : List Char} {r : RE}
    (hwb : containsWb r = true → wordAt (u ++ v) u.length = false)
    (hns : NoSpanAt r u v) {i : Nat} (hi : i < u.length) :
    matchAt r u i = matchAt r (u ++ v) i := by
  unfold matchAt
  rw [runList_restrict u v r hwb i (by omega)]
  rw [List.filter_eq_self.mpr (fun x hx => by simpa using hns i hi x hx)]

/-- The reported match in the suffix is the shifted match of the suffix
text. -/
theorem matchAt_shift_eq {u v : List Char} {r : RE}
    (hwb : containsWb r = true → prevWordAt (u ++ v) u.length = false)
    (i : Nat) :
    matchAt r (u ++ v) (u.length + i) =
      (matchAt r v i).map (fun x => u.length + x) := by
  unfold matchAt
  rw [runList_shift u v r hwb i, List.head?_map]

/-- A pattern that always consumes at least one character cannot match at
the end of the string. -/
theorem matchAt_end_none {r : RE} {s : List Char}
    (hne : ∀ i j, j ∈ runList r s i → i < j) :
    matchAt r s s.length = none := by
  unfold matchAt
  cases hl : runList r s s.length with
  | nil => rfl
  | cons x t =>
    have hx : x ∈ runList r s s.length := by
      rw [hl]
      exact List.mem_cons_self x t
    have h1 := hne _ _ hx
    have h2 := (runList_bounds r s s.length x hx).2 (Nat.le_refl _)
    omega

/-- Every email match consumes at least one character. -/
theorem email_ne (n : Nat) (s : List Char) :
    ∀ i j, j ∈ runList (emailRE n) s i → i < j := by
  intro i j h
  unfold emailRE at h
  rw [runList_seq] at h
  obtain ⟨m, hm, hj⟩ := List.mem_flatMap.mp h
  rw [runList_many] at hm
  have h1 := (mem_descRange.mp hm).1
  have h2 := (runList_bounds _ s m j hj).1
  omega

/-- Every URL match consumes at least one character. -/
theorem url_ne (s : List Char) :
    ∀ i j, j ∈ runList urlRE s i → i < j := by
  intro i j h
  unfold urlRE at h
  rw [runList_seq] at h
  obtain ⟨m, hm, hj⟩ := List.mem_flatMap.mp h
  rw [runList_lit] at hm
  by_cases hl : litAt (("http").data) s i = true
  · rw [if_pos hl] at hm
    rcases List.mem_singleton.mp hm with rfl
    have h2 := (runList_bounds _ s _ j hj).1
    have : (("http").data).length = 4 := rfl
    omega
  · rw [if_neg hl] at hm
    cases hm

/-- Every phone match consumes at least one character. -/
theorem phone_ne (s : List Char) :
    ∀ i j, j ∈ runList phoneRE s i → i < j :=
  fun _ _ h => (phone_last h).1

/-- Every credit-card match consumes at least one character. -/
theorem card_ne (s : List Char) :
    ∀ i j, j ∈ runList cardRE s i → i < j := by
  intro i j h
  obtain ⟨-, -, c, h13, -, hch⟩ := card_match_sound h
  cases hch with
  | zero => omega
  | succ hstep htail =>
    have htl := chain_le htail
    obtain ⟨-, h1 | ⟨h1, -⟩⟩ := hstep <;> omega

/-- Scanning the suffix part of the concatenation is the shifted scan of
the suffix. -/
theorem findallPosAux_shift (u v : List Char) (r : RE)
    (hwb : containsWb r = true → prevWordAt (u ++ v) u.length = false) :
    ∀ fuel i, findallPosAux r (u ++ v) fuel (u.length + i) =
      (findallPosAux r v fuel i).map
        (fun p => (u.length + p.1, u.length + p.2)) := by
  intro fuel
  induction fuel with
  | zero => intro i; rfl
  | succ n ih =>
    intro i
    by_cases hpast : v.length < i
    · rw [findallPosAux_past (by rw [List.length_append]; omega) (n + 1),
        findallPosAux_past hpast (n + 1)]
      rfl
    · have hmap := matchAt_shift_eq hwb i
      cases hm : matchAt r v i with
      | none =>
        have hcn : matchAt r (u ++ v) (u.length + i) = none := by
          rw [hmap, hm]
          rfl
        rw [findallPosAux_step_none r (u ++ v)
            (by rw [List.length_append]; omega) hcn,
          findallPosAux_step_none r v hpast hm]
        rw [show u.length + i + 1 = u.length + (i + 1) by omega, ih (i + 1)]
      | some j =>
        have hcs : matchAt r (u ++ v) (u.length + i) = some (u.length + j) := by
          rw [hmap, hm]
          rfl
        rw [findallPosAux_step_some r (u ++ v)
            (by rw [List.length_append]; omega) hcs,
          findallPosAux_step_some r v hpast hm]
        by_cases hij : i < j
        · rw [if_pos (show u.length + i < u.length + j by omega), if_pos hij,
            ih j]
          rfl
        · rw [if_neg (show ¬ u.length + i < u.length + j by omega),
            if_neg hij,
            show u.length + i + 1 = u.length + (i + 1) by omega, ih (i + 1)]
          rfl

/-- Scanning the concatenation is the scan of the prefix followed by the
shifted scan of the suffix, under the no-spanning hypothesis and the
word-boundary side conditions. -/
theorem findallPosAux_concat (u v : List Char) (r : RE)
    (hwbW : containsWb r = true → wordAt (u ++ v) u.length = false)
    (hwbP : containsWb r = true → prevWordAt (u ++ v) u.length = false)
    (hns : NoSpanAt r u v)
    (hne : ∀ (w : List Char) i j, j ∈ runList r w i → i < j) :
    ∀ fuel i, i ≤ u.length → (u ++ v).length + 2 ≤ fuel + i →
      findallPosAux r (u ++ v) fuel i =
        findallPosAux r u fuel i ++
          (findallPosAux r v (v.length + 2) 0).map
            (fun p => (u.length + p.1, u.length + p.2)) := by
  intro fuel
  induction fuel with
  | zero =>
    intro i hi hfuel
    rw [List.length_append] at hfuel
    exact absurd hfuel (by omega)
  | succ n ih =>
    intro i hi hfuel
    by_cases hiu : i = u.length
    · subst hiu
      have hs : findallPosAux r (u ++ v) (n + 1) u.length =
          (findallPosAux r v (n + 1) 0).map
            (fun p => (u.length + p.1, u.length + p.2)) :=
        findallPosAux_shift u v r hwbP (n + 1) 0
      rw [hs]
      rw [List.length_append] at hfuel
      rw [findallPosAux_fuel (n + 1) (v.length + 2) 0 (by omega) (by omega)]
      have hu0 : findallPosAux r u (n + 1) u.length = [] := by
        rw [findallPosAux_step_none r u (by omega) (matchAt_end_none (hne u))]
        exact findallPosAux_past (by omega) n
      rw [hu0]
      rfl
    · have hilt : i < u.length := by omega
      have hma := matchAt_restrict_eq hwbW hns hilt
      cases hm : matchAt r u i with
      | none =>
        rw [findallPosAux_step_none r (u ++ v)
            (by rw [List.length_append]; omega) (by rw [← hma]; exact hm),
          findallPosAux_step_none r u (by omega) hm]
        exact ih (i + 1) (by omega) (by omega)
      | some j =>
        have hij : i < j := hne u i j (matchAt_mem hm)
        have hjle : j ≤ u.length :=
          (runList_bounds r u i j (matchAt_mem hm)).2 (by omega)
        rw [findallPosAux_step_some r (u ++ v)
            (by rw [List.length_append]; omega) (by rw [← hma]; exact hm),
          findallPosAux_step_some r u (by omega) hm]
        rw [if_pos hij, if_pos hij]
        rw [ih j (by omega) (by omega)]
        rfl

/-- The interval list of the concatenation splits at the boundary. -/
theorem findallPos_concat (u v : List Char) (r : RE)
    (hwbW : containsWb r = true → wordAt (u ++ v) u.length = false)
    (hwbP : containsWb r = true → prevWordAt (u ++ v) u.length = false)
    (hns : NoSpanAt r u v)
    (hne : ∀ (w : List Char) i j, j ∈ runList r w i → i < j) :
    findallPos r (u ++ v) =
      findallPos r u ++
        (findallPos r v).map (fun p => (u.length + p.1, u.length + p.2)) := by
  unfold findallPos
  rw [findallPosAux_concat u v r hwbW hwbP hns hne ((u ++ v).length + 2) 0
    (by omega) (by omega)]
  congr 1
  exact findallPosAux_fuel ((u ++ v).length + 2) (u.length + 2) 0
    (by rw [List.length_append]; omega) (by omega)

/-- The matched substrings of the concatenation split at the boundary. -/
theorem findall_concat (u v : List Char) (r : RE)
    (hwbW : containsWb r = true → wordAt (u ++ v) u.length = false)
    (hwbP : containsWb r = true → prevWordAt (u ++ v) u.length = false)
    (hns : NoSpanAt r u v)
    (hne : ∀ (w : List Char) i j, j ∈ runList r w i → i < j) :
    findall r (u ++ v) = findall r u ++ findall r v := by
  unfold findall
  rw [findallPos_concat u v r hwbW hwbP hns hne, List.map_append,
    List.map_map]
  congr 1
  · apply List.map_congr_left
    intro p hp
    obtain ⟨hm, hple⟩ := findallPosAux_sound _ _ p hp
    have hmem := matchAt_mem hm
    have hj := (runList_bounds r u p.1 p.2 hmem).2 hple
    unfold sliceStr
    rw [List.take_append_of_le_length hj]
  · apply List.map_congr_left
    intro p hp
    show sliceStr (u ++ v) (u.length + p.1) (u.length + p.2) =
      sliceStr v p.1 p.2
    unfold sliceStr
    rw [List.take_append, List.drop_append]

/-- A group repetition whose step can make no progress at `i` ignores its
iteration bound. -/
theorem grpList_stuck {step : Nat → List Nat} {i : Nat} (h : step i = []) :
    ∀ lo hi, grpList step lo hi i = if lo == 0 then [i] else [] := by
  intro lo hi
  cases hi with
  | zero => rfl
  | succ n =>
    unfold grpList
    rw [h]
    by_cases hlo : (lo == 0) = true
    · rw [if_pos hlo, if_pos hlo]
      rfl
    · rw [if_neg hlo, if_neg hlo]
      rfl

/-- The iteration bound of a group repetition is irrelevant once it
covers the characters the subject can still supply, for a step that
always advances and stays inside the subject. -/
theorem grpList_fuel {step : Nat → List Nat} {L : Nat}
    (hstep : ∀ p q, q ∈ step p → p < q ∧ q ≤ L) :
    ∀ d i lo h₁ h₂, L ≤ i + d → d ≤ h₁ → d ≤ h₂ →
      grpList step lo h₁ i = grpList step lo h₂ i := by
  intro d
  induction d with
  | zero =>
    intro i lo h₁ h₂ hL _ _
    have hnil : step i = [] := by
      cases hs : step i with
      | nil => rfl
      | cons q t =>
        have hq := hstep i q (by rw [hs]; exact List.mem_cons_self q t)
        omega
    rw [grpList_stuck hnil, grpList_stuck hnil]
  | succ d ih =>
    intro i lo h₁ h₂ hL hd₁ hd₂
    by_cases hiL : L ≤ i
    · have hnil : step i = [] := by
        cases hs : step i with
        | nil => rfl
        | cons q t =>
          have hq := hstep i q (by rw [hs]; exact List.mem_cons_self q t)
          omega
      rw [grpList_stuck hnil, grpList_stuck hnil]
    · obtain ⟨a, rfl⟩ : ∃ a, h₁ = a + 1 := ⟨h₁ - 1, by omega⟩
      obtain ⟨b, rfl⟩ : ∃ b, h₂ = b + 1 := ⟨h₂ - 1, by omega⟩
      unfold grpList
      by_cases hlo : (lo == 0) = true
      · rw [if_pos hlo, if_pos hlo]
        congr 1
        exact flatMap_congr_mem (fun q hq =>
          ih q 0 a b (by have := hstep i q hq; omega) (by omega) (by omega))
      · rw [if_neg hlo, if_neg hlo]
        exact flatMap_congr_mem (fun q hq =>
          ih q (lo - 1) a b (by have := hstep i q hq; omega) (by omega)
            (by omega))

/-- The email iteration bound is irrelevant once it reaches the subject
length: two sufficient bounds give the same matcher results. -/
theorem emailRE_fuel (s : List Char) {n₁ n₂ : Nat}
    (hn₁ : s.length ≤ n₁) (hn₂ : s.length ≤ n₂) :
    ∀ i, runList (emailRE n₁) s i = runList (emailRE n₂) s i := by
  have hstep : ∀ p q,
      q ∈ runList (.seq (.cls (fun c => c == '.')) (.many domC 1)) s p →
        p < q ∧ q ≤ s.length := by
    intro p q hq
    rw [runList_seq] at hq
    obtain ⟨m, hm, hq2⟩ := List.mem_flatMap.mp hq
    cases hg : s.get? p with
    | none =>
      rw [runList_cls_none hg] at hm
      exact absurd hm (List.not_mem_nil m)
    | some c =>
      have hp : p < s.length := by
        by_contra hcon
        rw [List.get?_eq_none.mpr (by omega)] at hg
        cases hg
      rw [runList_cls_some hg] at hm
      by_cases hc : (c == '.') = true
      · rw [if_pos hc] at hm
        rcases List.mem_singleton.mp hm with rfl
        have hb2 := runList_bounds _ s (p + 1) q hq2
        exact ⟨by omega, by have := hb2.2 (by omega); omega⟩
      · rw [if_neg hc] at hm
        exact absurd hm (List.not_mem_nil m)
  intro i
  unfold emailRE
  rw [runList_seq, runList_seq]
  apply flatMap_congr_mem
  intro m₁ hm₁
  beta_reduce
  rw [runList_seq, runList_seq]
  apply flatMap_congr_mem
  intro m₂ hm₂
  beta_reduce
  rw [runList_seq, runList_seq]
  apply flatMap_congr_mem
  intro m₃ hm₃
  beta_reduce
  rw [runList_grp, runList_grp]
  exact @grpList_fuel
    (fun j => runList (.seq (.cls (fun c => c == '.')) (.many domC 1)) s j)
    s.length hstep s.length m₃ 1 n₁ n₂ (by omega) hn₁ hn₂

/-- Two patterns that report the same match at every in-range position
scan identically. -/
theorem findallPosAux_congr {r₁ r₂ : RE} {s : List Char}
    (h : ∀ i, i ≤ s.length → matchAt r₁ s i = matchAt r₂ s i) :
    ∀ fuel i, findallPosAux r₁ s fuel i = findallPosAux r₂ s fuel i := by
  intro fuel
  induction fuel with
  | zero => intro i; rfl
  | succ n ih =>
    intro i
    by_cases hpast : s.length < i
    · rw [findallPosAux_past hpast, findallPosAux_past hpast]
    · cases hm : matchAt r₁ s i with
      | none =>
        rw [findallPosAux_step_none r₁ s hpast hm,
          findallPosAux_step_none r₂ s hpast
            (by rw [← h i (by omega)]; exact hm)]
        exact ih (i + 1)
      | some j =>
        rw [findallPosAux_step_some r₁ s hpast hm,
          findallPosAux_step_some r₂ s hpast
            (by rw [← h i (by omega)]; exact hm)]
        by_cases hij : i < j
        · rw [if_pos hij, if_pos hij, ih j]
        · rw [if_neg hij, if_neg hij, ih (i + 1)]

/-- Two patterns with identical matcher results have the same matched
substrings. -/
theorem findall_congr {r₁ r₂ : RE} {s : List Char}
    (h : ∀ i, runList r₁ s i = runList r₂ s i) :
    findall r₁ s = findall r₂ s := by
  unfold findall findallPos
  rw [@findallPosAux_congr r₁ r₂ s
    (fun i _ => by unfold matchAt; rw [h i]) (s.length + 2) 0]

/-- The email pattern contains no word-boundary assertion. -/
theorem emailRE_noWb (n : Nat) : containsWb (emailRE n) = false := rfl

/-- The URL pattern contains no word-boundary assertion. -/
theorem urlRE_noWb : containsWb urlRE = false := rfl

/-- The phone pattern contains no word-boundary assertion. -/
theorem phoneRE_noWb : containsWb phoneRE = false := rfl

/-- Email findings split at a no-spanning junction. -/
theorem extract_emails_concat (u v : List Char)
    (hns : NoSpanAt (emailRE (u.length + v.length)) u v) :
    extract_emails (u ++ v) = extract_emails u ++ extract_emails v := by
  unfold extract_emails
  rw [List.length_append]
  have h1 : findall (emailRE (u.length + v.length)) u =
      findall (emailRE u.length) u :=
    findall_congr (emailRE_fuel u (by omega) (by omega))
  have h2 : findall (emailRE (u.length + v.length)) v =
      findall (emailRE v.length) v :=
    findall_congr (emailRE_fuel v (by omega) (by omega))
  rw [findall_concat u v (emailRE (u.length + v.length))
      (fun h => absurd h (by rw [emailRE_noWb]; exact Bool.false_ne_true))
      (fun h => absurd h (by rw [emailRE_noWb]; exact Bool.false_ne_true))
      hns (email_ne (u.length + v.length)),
    h1, h2, List.map_append]

/-- URL findings split at a no-spanning junction. -/
theorem extract_urls_concat (u v : List Char) (hns : NoSpanAt urlRE u v) :
    extract_urls (u ++ v) = extract_urls u ++ extract_urls v := by
  unfold extract_urls
  rw [findall_concat u v urlRE
      (fun h => absurd h (by rw [urlRE_noWb]; exact Bool.false_ne_true))
      (fun h => absurd h (by rw [urlRE_noWb]; exact Bool.false_ne_true))
      hns url_ne,
    List.map_append]

/-- Phone findings split at a no-spanning junction. -/
theorem extract_phones_concat (u v : List Char)
    (hns : NoSpanAt phoneRE u v) :
    extract_phone_numbers (u ++ v) =
      extract_phone_numbers u ++ extract_phone_numbers v := by
  unfold extract_phone_numbers
  rw [findall_concat u v phoneRE
      (fun h => absurd h (by rw [phoneRE_noWb]; exact Bool.false_ne_true))
      (fun h => absurd h (by rw [phoneRE_noWb]; exact Bool.false_ne_true))
      hns phone_ne,
    List.map_append]

/-- Credit-card findings split at a junction with no word character
adjacent to it on either side. -/
theorem extract_cards_concat (u v : List Char) (hns : NoSpanAt cardRE u v)
    (hword : wordAt (u ++ v) u.length = false)
    (hprev : prevWordAt (u ++ v) u.length = false) :
    extract_credit_cards (u ++ v) =
      extract_credit_cards u ++ extract_credit_cards v := by
  unfold extract_credit_cards
  rw [findall_concat u v cardRE (fun _ => hword) (fun _ => hprev) hns
      card_ne,
    List.map_append]

/-- C7 counterexample to the unamended claim: with `t1 = "a"` and `t2`
thirteen characters `1`, no pattern can match a substring spanning the
junction (no card match even starts inside `t1`), yet the credit-card
findings of the concatenation are not the concatenation of the findings:
the `\b` assertion of the card pattern is context-sensitive, and gluing
the word character `a` directly against the digits destroys the word
boundary that made `t2` match on its own. -/
theorem c7_concat_counterexample :
    NoSpanAt
        (emailRE ((("a").data).length + (("1111111111111").data).length))
        (("a").data) (("1111111111111").data) ∧
      NoSpanAt urlRE (("a").data) (("1111111111111").data) ∧
      NoSpanAt phoneRE (("a").data) (("1111111111111").data) ∧
      NoSpanAt cardRE (("a").data) (("1111111111111").data) ∧
      ¬ ((extract_all
            ((("a").data) ++ (("1111111111111").data))).credit_cards =
          (extract_all (("a").data)).credit_cards ++
            (extract_all (("1111111111111").data)).credit_cards) := by
  refine ⟨?_, ?_, ?_, ?_, ?_⟩
  · unfold NoSpanAt
    decide
  · unfold NoSpanAt
    decide
  · unfold NoSpanAt
    decide
  · unfold NoSpanAt
    decide
  · decide

/-- C7 (amended): for two texts such that no category pattern can match
a substring spanning the junction and no word character stands directly
on either side of the junction, each of the four category keys of
`extract_all` on the concatenation is the concatenation of the two
texts' findings for that key, in order. -/
theorem c7_extract_all_concat (t1 t2 : List Char)
    (hemail : NoSpanAt (emailRE (t1.length + t2.length)) t1 t2)
    (hurl : NoSpanAt urlRE t1 t2)
    (hphone : NoSpanAt phoneRE t1 t2)
    (hcard : NoSpanAt cardRE t1 t2)
    (hword : wordAt (t1 ++ t2) t1.length = false)
    (hprev : prevWordAt (t1 ++ t2) t1.length = false) :
    (extract_all (t1 ++ t2)).emails =
        (extract_all t1).emails ++ (extract_all t2).emails ∧
      (extract_all (t1 ++ t2)).urls =
        (extract_all t1).urls ++ (extract_all t2).urls ∧
      (extract_all (t1 ++ t2)).phones =
        (extract_all t1).phones ++ (extract_all t2).phones ∧
      (extract_all (t1 ++ t2)).credit_cards =
        (extract_all t1).credit_cards ++ (extract_all t2).credit_cards :=
  ⟨extract_emails_concat t1 t2 hemail, extract_urls_concat t1 t2 hurl,
   extract_phones_concat t1 t2 hphone,
   extract_cards_concat t1 t2 hcard hword hprev⟩

/-- Witness for the amended C7 theorem: all its hypotheses hold for the
texts `a@b.cd ` and `(555) 123-4567`, and the conclusion follows by
applying the theorem there. -/
theorem c7_extract_all_concat_witness :
    (NoSpanAt
        (emailRE ((("a@b.cd ").data).length +
          (("(555) 123-4567").data).length))
        (("a@b.cd ").data) (("(555) 123-4567").data) ∧
      NoSpanAt urlRE (("a@b.cd ").data) (("(555) 123-4567").data) ∧
      NoSpanAt phoneRE (("a@b.cd ").data) (("(555) 123-4567").data) ∧
      NoSpanAt cardRE (("a@b.cd ").data) (("(555) 123-4567").data) ∧
      wordAt ((("a@b.cd ").data) ++ (("(555) 123-4567").data))
        (("a@b.cd ").data).length = false ∧
      prevWordAt ((("a@b.cd ").data) ++ (("(555) 123-4567").data))
        (("a@b.cd ").data).length = false) ∧
    (extract_all ((("a@b.cd ").data) ++ (("(555) 123-4567").data))).emails =
        (extract_all (("a@b.cd ").data)).emails ++
          (extract_all (("(555) 123-4567").data)).emails ∧
      (extract_all ((("a@b.cd ").data) ++ (("(555) 123-4567").data))).urls =
        (extract_all (("a@b.cd ").data)).urls ++
          (extract_all (("(555) 123-4567").data)).urls ∧
      (extract_all
          ((("a@b.cd ").data) ++ (("(555) 123-4567").data))).phones =
        (extract_all (("a@b.cd ").data)).phones ++
          (extract_all (("(555) 123-4567").data)).phones ∧
      (extract_all
          ((("a@b.cd ").data) ++ (("(555) 123-4567").data))).credit_cards =
        (extract_all (("a@b.cd ").data)).credit_cards ++
          (extract_all (("(555) 123-4567").data)).credit_cards :=
  ⟨⟨by unfold NoSpanAt; decide, by unfold NoSpanAt; decide,
    by unfold NoSpanAt; decide, by unfold NoSpanAt; decide,
    by decide, by decide⟩,
   c7_extract_all_concat (("a@b.cd ").data) (("(555) 123-4567").data)
     (by unfold NoSpanAt; decide) (by unfold NoSpanAt; decide)
     (by unfold NoSpanAt; decide) (by unfold NoSpanAt; decide)
     (by decide) (by decide)⟩

end Regexpy
